import Mathlib

/-!
Verification of the Sudoku generation/solving engine of this repository.

The board is a 9×9 matrix of cell values, each either `0` (EMPTY) or a
digit `1`–`9`.  We embed the board as a function `Fin 9 → Fin 9 → ℕ`,
in-place mutation as explicit state passing, and the `Math.random`
based digit shuffles as an explicit stream of digit lists (one list per
cell visit of the backtracking search).
-/

/-- A 9×9 grid of cell values; `0` means EMPTY. -/
def Board : Type := Fin 9 → Fin 9 → ℕ

/-- The digit list `[1,…,9]` that the solver shuffles at each cell visit. -/
def digits : List ℕ := [1, 2, 3, 4, 5, 6, 7, 8, 9]

/-- Write value `v` at cell `(r, c)` (the pure rendering of `board[r][c] = v`). -/
def setCell (b : Board) (r c : Fin 9) (v : ℕ) : Board :=
  fun i j => if i = r ∧ j = c then v else b i j

/-- Computes `Math.floor(q / 3) * 3 + i`: the rows (resp. columns) of the 3×3 box
containing coordinate `q`. -/
def boxCell (q : Fin 9) (i : Fin 3) : Fin 9 :=
  ⟨q.val / 3 * 3 + i.val, by omega⟩

/-- Source function `isValid(board, row, col, num)`: true iff `num` does not
already occur in the row, in the column, or in the 3×3 box of `(row, col)`. -/
def isValid (b : Board) (r c : Fin 9) (n : ℕ) : Bool :=
  decide (∀ i : Fin 9, b r i ≠ n ∧ b i c ≠ n) &&
  decide (∀ i : Fin 3, ∀ j : Fin 3, b (boxCell r i) (boxCell c j) ≠ n)

/-- All 81 cell coordinates in row-major order (the scan order of the
nested `for` loops of `backtrack`, and the build order of `removableCells`). -/
def allCellsList : List (Fin 9 × Fin 9) :=
  (List.finRange 9).flatMap fun r => (List.finRange 9).map fun c => (r, c)

/-- The first EMPTY cell in row-major order, if any. -/
def firstEmpty (b : Board) : Option (Fin 9 × Fin 9) :=
  allCellsList.find? fun p => b p.1 p.2 == 0

/-- Number of EMPTY cells of a board. -/
def emptyCount (b : Board) : ℕ :=
  (Finset.univ.filter fun p : Fin 9 × Fin 9 => b p.1 p.2 = 0).card

/-- Number of non-EMPTY cells (clues) of a board. -/
def clueCount (b : Board) : ℕ :=
  (Finset.univ.filter fun p : Fin 9 × Fin 9 => b p.1 p.2 ≠ 0).card

/-- A stream of digit lists: the `k`-th element models the shuffled array
`[1,…,9].sort(() => Math.random() - 0.5)` produced at the `k`-th cell visit. -/
def Shuffle : Type := ℕ → List ℕ

/-- Drop the first element of a shuffle stream. -/
def tl (σ : Shuffle) : Shuffle := fun k => σ (k + 1)

/-- A faithful shuffle stream: JavaScript `sort` with any comparator returns
a permutation of the array, so every produced list is a permutation of
`[1,…,9]`. -/
def ValidStream (σ : Shuffle) : Prop := ∀ k, (σ k).Perm digits

/-- The mutable state captured by the `backtrack` closure: the board being
mutated in place, the solution counter `count`, and the pending randomness. -/
structure BtState where
  board : Board
  rnd : Shuffle
  count : ℕ

/-- The `for (const num of nums)` loop body of `backtrack` at cell `(r, c)`,
with the recursive call `recur` passed as a parameter: for each digit passing
`isValid`, assign it and recurse; in `FindOne` mode a successful recursion
propagates immediately (keeping the assignment) and a failed one is undone; in
counting mode a successful recursion additionally increments `count` and
returns once `count` reaches the limit.  After the loop the function returns
`false` (`FindOne`) resp. `count >= solutions`. -/
def tryNums (solutions : ℕ) (recur : BtState → Bool × BtState) (r c : Fin 9) :
    List ℕ → BtState → Bool × BtState
  | [], st => (if solutions = 1 then false else decide (solutions ≤ st.count), st)
  | n :: rest, st =>
    if isValid st.board r c n then
      let res := recur { st with board := setCell st.board r c n }
      if solutions = 1 then
        if res.1 then (true, res.2)
        else tryNums solutions recur r c rest
          { res.2 with board := setCell res.2.board r c 0 }
      else
        if res.1 then
          if solutions ≤ res.2.count + 1 then (true, { res.2 with count := res.2.count + 1 })
          else tryNums solutions recur r c rest
            { res.2 with board := setCell res.2.board r c 0, count := res.2.count + 1 }
        else tryNums solutions recur r c rest
          { res.2 with board := setCell res.2.board r c 0 }
    else tryNums solutions recur r c rest st

/-- The `backtrack` closure of `solve(board, solutions)`: scans for the first
EMPTY cell; if none remain the puzzle is full (`solutions === 1` returns true,
otherwise `count++` and compare with the limit); at an EMPTY cell it takes the
next shuffled digit list and tries the digits in order.  `fuel` bounds the
recursion depth (each nested call fills one cell, so 82 always suffices). -/
def backtrack (solutions : ℕ) : ℕ → BtState → Bool × BtState
  | 0, st => (if solutions = 1 then false else decide (solutions ≤ st.count), st)
  | fuel + 1, st =>
    match firstEmpty st.board with
    | none =>
        if solutions = 1 then (true, st)
        else (decide (solutions ≤ st.count + 1), { st with count := st.count + 1 })
    | some rc =>
        tryNums solutions (backtrack solutions fuel) rc.1 rc.2 (st.rnd 0)
          { st with rnd := tl st.rnd }

/-- Source function `solve(board, solutions)`, with the randomness made
explicit.  Returns the result flag together with the final mutable state
(board, remaining randomness and solution counter); the JavaScript function
returns the flag in `FindOne` mode and the counter in counting mode. -/
def solve (σ : Shuffle) (b : Board) (solutions : ℕ) : Bool × BtState :=
  backtrack solutions 82 { board := b, rnd := σ, count := 0 }

/-- The value `solve` returns in counting mode: the final solution counter. -/
def solveCount (σ : Shuffle) (b : Board) (solutions : ℕ) : ℕ :=
  (solve σ b solutions).2.count

/-- The state of the caller's grid after `solve` returns (the JavaScript
function mutates its `board` argument in place). -/
def solveBoard (σ : Shuffle) (b : Board) (solutions : ℕ) : Board :=
  (solve σ b solutions).2.board

/-- The all-EMPTY board `Array(9).fill(0).map(() => Array(9).fill(0))`. -/
def emptyBoard : Board := fun _ _ => 0

/-- Source function `generateFullGrid()`: run the solver in `FindOne` mode on
an empty board and return the (mutated) board, together with the remaining
randomness. -/
def generateFullGrid (σ : Shuffle) : Board × Shuffle :=
  let r := solve σ emptyBoard 1
  (r.2.board, r.2.rnd)

/-- Source function `findCandidates(board, row, col)`: for a non-EMPTY cell the
empty list; for an EMPTY cell the digits `1`–`9` minus every value seen in the
cell's row, column, or box — i.e. exactly the digits passing `isValid`, in
ascending order (the insertion order of the JavaScript `Set`). -/
def findCandidates (b : Board) (r c : Fin 9) : List ℕ :=
  if b r c ≠ 0 then [] else digits.filter fun n => isValid b r c n

/-- Row index `u / 3 * 3 + i` of position `i` inside box number `u`
(`startRow` in the source's box loops). -/
def boxRow (u : Fin 9) (i : Fin 3) : Fin 9 :=
  ⟨u.val / 3 * 3 + i.val, by omega⟩

/-- Column index `u % 3 * 3 + j` of position `j` inside box number `u`
(`startCol` in `getRequiredTechniqueLevel`'s box check). -/
def boxCol (u : Fin 9) (j : Fin 3) : Fin 9 :=
  ⟨u.val % 3 * 3 + j.val, by omega⟩

/-- Counter `rowCount` in the hidden-single check: how many cells of row `i` have `n`
among their candidates. -/
def rowSingleCount (b : Board) (i : Fin 9) (n : ℕ) : ℕ :=
  ((List.finRange 9).filter fun c => n ∈ findCandidates b i c).length

/-- Counter `colCount` in the hidden-single check: how many cells of column `i` have
`n` among their candidates. -/
def colSingleCount (b : Board) (i : Fin 9) (n : ℕ) : ℕ :=
  ((List.finRange 9).filter fun r => n ∈ findCandidates b r i).length

/-- The 3×3 positions inside a box, in the scan order of the box loops. -/
def pairs3 : List (Fin 3 × Fin 3) :=
  (List.finRange 3).flatMap fun i => (List.finRange 3).map fun j => (i, j)

/-- Counter `boxCount` in the hidden-single check: how many cells of box `i` have `n`
among their candidates. -/
def boxSingleCount (b : Board) (i : Fin 9) (n : ℕ) : ℕ :=
  (pairs3.filter fun p => n ∈ findCandidates b (boxRow i p.1) (boxCol i p.2)).length

/-- The classification returned by `getRequiredTechniqueLevel` (string
constants in the source). -/
inductive TechLevel where
  | EASY_SINGLE
  | SOLVED
  | REQUIRES_ADVANCED
deriving DecidableEq

/-- Source function `getRequiredTechniqueLevel(board)`: EASY_SINGLE if some
cell's candidate list has length 1 (naked single) or some row/column/box has a
digit admitted by exactly one of its cells' candidate lists (hidden single);
otherwise SOLVED for a board with no EMPTY cell and REQUIRES_ADVANCED else.
The early `return` of the source loops is rendered with `List.any`. -/
def getRequiredTechniqueLevel (b : Board) : TechLevel :=
  if allCellsList.any (fun p => (findCandidates b p.1 p.2).length == 1) then
    .EASY_SINGLE
  else if (List.finRange 9).any (fun i => digits.any fun n =>
      rowSingleCount b i n == 1 || colSingleCount b i n == 1 ||
      boxSingleCount b i n == 1) then
    .EASY_SINGLE
  else if allCellsList.all (fun p => b p.1 p.2 != 0) then .SOLVED
  else .REQUIRES_ADVANCED

/-- The tiers for which `generateSudokuPuzzle` invokes the technique gate:
`difficulty === 'easy' || difficulty === 'medium'`. -/
def usesGate (difficulty : String) : Bool :=
  difficulty == "easy" || difficulty == "medium"

/-- The mutable state of `generateSudokuPuzzle`'s removal loop: the working
puzzle, the `clues` and `attempts` counters, the `removableCells` array
(index 0 is the `unshift` end, the last element is the `pop` end), and the
pending randomness for the uniqueness checks. -/
structure GenState where
  puzzle : Board
  clues : ℕ
  attempts : ℕ
  cells : List (Fin 9 × Fin 9)
  rnd : Shuffle

/-- Source constant `maxAttemptsPerRemoval`. -/
def maxAttemptsPerRemoval : ℕ := 50

/-- One iteration of the removal loop: pop the next cell, clear it, count
solutions up to 2 on a copy, run the technique gate for easy/medium, and
either accept the removal (`clues--`, `attempts = 0`) or restore the clue,
unshift the cell and bump `attempts`. -/
def genBody (difficulty : String) (st : GenState) : GenState :=
  match st.cells.getLast? with
  | none => st
  | some rc =>
    let rest := st.cells.dropLast
    let originalValue := st.puzzle rc.1 rc.2
    let puzzle1 := setCell st.puzzle rc.1 rc.2 0
    let run := solve st.rnd puzzle1 2
    let solutionsFound := run.2.count
    let techniqueCheckPassed : Bool :=
      if usesGate difficulty then
        decide (getRequiredTechniqueLevel puzzle1 ≠ .REQUIRES_ADVANCED)
      else true
    if solutionsFound = 1 ∧ techniqueCheckPassed = true then
      { puzzle := puzzle1, clues := st.clues - 1, attempts := 0,
        cells := rest, rnd := run.2.rnd }
    else
      { puzzle := setCell puzzle1 rc.1 rc.2 originalValue, clues := st.clues,
        attempts := st.attempts + 1, cells := rc :: rest, rnd := run.2.rnd }

/-- The exit condition of the removal loop: the `while` guard
`clues > targetClues && removableCells.length > 0` fails, or the body's
`attempts >= maxAttemptsPerRemoval` break fires. -/
def loopDone (target : ℕ) (st : GenState) : Bool :=
  !(decide (target < st.clues)) || st.cells.isEmpty ||
    decide (maxAttemptsPerRemoval ≤ st.attempts)

/-- The removal loop, fuel-indexed.  `genLoop_done` below shows that
`genFuel` steps always suffice to reach a `loopDone` state. -/
def genLoop (target : ℕ) (difficulty : String) : ℕ → GenState → GenState
  | 0, st => st
  | fuel + 1, st =>
    if loopDone target st then st
    else genLoop target difficulty fuel (genBody difficulty st)

/-- Strict upper bound on the iterations of the removal loop (the measure
`clues * 51 + (50 - attempts)` starts at most at `81 * 51 + 50`). -/
def genFuel : ℕ := 81 * 51 + 50

/-- Source function `generateSudokuPuzzle(targetClues, difficulty)`, with the
digit randomness `σ` and the shuffled removal order `order` made explicit. -/
def generateSudokuPuzzle (σ : Shuffle) (order : List (Fin 9 × Fin 9))
    (targetClues : ℕ) (difficulty : String) : Board :=
  let fg := generateFullGrid σ
  (genLoop targetClues difficulty genFuel
    { puzzle := fg.1, clues := 81, attempts := 0, cells := order,
      rnd := fg.2 }).puzzle

/-- Source table `DIFFICULTY_CLUES`: the difficulty-name → target-clue-count
table. -/
def DIFFICULTY_CLUES : String → Option ℕ := fun d =>
  if d = "easy" then some 48
  else if d = "medium" then some 35
  else if d = "hard" then some 25
  else if d = "minima" then some 17
  else none

/-! Section: Semantic notions: validity, consistency, completions -/

/-- Coordinates of position `p` inside unit number `u` of kind `k`
(`k = 0`: row, `k = 1`: column, `k = 2`: 3×3 box). -/
def unitCell (k : Fin 3) (u p : Fin 9) : Fin 9 × Fin 9 :=
  if k.val = 0 then (u, p)
  else if k.val = 1 then (p, u)
  else (boxRow u ⟨p.val / 3, by omega⟩, boxCol u ⟨p.val % 3, by omega⟩)

/-- The unit of kind `k` containing cell `(r, c)`. -/
def cellUnit (k : Fin 3) (r c : Fin 9) : Fin 9 :=
  if k.val = 0 then r
  else if k.val = 1 then c
  else ⟨r.val / 3 * 3 + c.val / 3, by omega⟩

/-- The position of cell `(r, c)` inside its unit of kind `k`. -/
def cellPos (k : Fin 3) (r c : Fin 9) : Fin 9 :=
  if k.val = 0 then c
  else if k.val = 1 then r
  else ⟨r.val % 3 * 3 + c.val % 3, by omega⟩

/-- Number of occurrences of value `n` in unit `u` of kind `k`. -/
def unitCount (b : Board) (k : Fin 3) (u : Fin 9) (n : ℕ) : ℕ :=
  (Finset.univ.filter fun p : Fin 9 =>
    b (unitCell k u p).1 (unitCell k u p).2 = n).card

/-- A fully assigned, rule-satisfying grid: every row, column and 3×3 box
contains each digit 1–9 exactly once. -/
def validBoard (b : Board) : Prop :=
  ∀ n ∈ digits, ∀ k : Fin 3, ∀ u : Fin 9, unitCount b k u n = 1

/-- No EMPTY cells remain. -/
def fullBoard (b : Board) : Prop := ∀ r c : Fin 9, b r c ≠ 0

/-- A consistent partial grid: every value is EMPTY or a digit 1–9, and no
digit occurs twice in a row, column or box. -/
def Consistent (b : Board) : Prop :=
  (∀ r c : Fin 9, b r c = 0 ∨ b r c ∈ digits) ∧
  ∀ n ∈ digits, ∀ k : Fin 3, ∀ u : Fin 9, unitCount b k u n ≤ 1

/-- Extension order: `b'` extends `b` when every non-EMPTY cell of `b` keeps its value in `b'`. -/
def extendsB (b b' : Board) : Prop :=
  ∀ r c : Fin 9, b r c ≠ 0 → b' r c = b r c

/-- Completion: `b'` is a valid completion of `b`: fully assigned, valid, and agreeing
with `b` on every clue of `b`. -/
def IsCompletion (b b' : Board) : Prop :=
  fullBoard b' ∧ validBoard b' ∧ extendsB b b'

instance (b : Board) : Decidable (fullBoard b) := by
  unfold fullBoard; infer_instance

instance (b : Board) : Decidable (validBoard b) := by
  unfold validBoard; infer_instance

instance (b : Board) : Decidable (Consistent b) := by
  unfold Consistent; infer_instance

instance (b b' : Board) : Decidable (extendsB b b') := by
  unfold extendsB; infer_instance

instance (b b' : Board) : Decidable (IsCompletion b b') := by
  unfold IsCompletion; infer_instance

/-- Digit grids: fully assigned boards with values coded in `Fin 9`. -/
structure DigitGrid where
  f : Fin 9 → Fin 9 → Fin 9

instance instFintypeDigitGrid : Fintype DigitGrid :=
  Fintype.ofEquiv (Fin 9 → Fin 9 → Fin 9)
    ⟨DigitGrid.mk, DigitGrid.f, fun _ => rfl, fun _ => rfl⟩

attribute [irreducible] instFintypeDigitGrid

/-- The board (values `1`–`9`) described by a digit grid. -/
def toBoard (g : DigitGrid) : Board := fun r c => (g.f r c).val + 1

/-- The number of valid completions of a board. -/
def NC (b : Board) : ℕ :=
  (Finset.univ.filter fun g : DigitGrid => IsCompletion b (toBoard g)).card

/-! Section: Concrete boards -/

/-- Board literal: row-major list of rows. -/
def mkBoard (l : List (List ℕ)) : Board :=
  fun r c => (l.getD r.val []).getD c.val 0

/-- A concrete fully assigned valid grid. -/
def fullGrid0 : Board := mkBoard
  [[5, 3, 4, 6, 7, 8, 9, 1, 2],
   [6, 7, 2, 1, 9, 5, 3, 4, 8],
   [1, 9, 8, 3, 4, 2, 5, 6, 7],
   [8, 5, 9, 7, 6, 1, 4, 2, 3],
   [4, 2, 6, 8, 5, 3, 7, 9, 1],
   [7, 1, 3, 9, 2, 4, 8, 5, 6],
   [9, 6, 1, 5, 3, 7, 2, 8, 4],
   [2, 8, 7, 4, 1, 9, 6, 3, 5],
   [3, 4, 5, 2, 8, 6, 1, 7, 9]]

/-- Board `fullGrid0` with the unavoidable rectangle `(3,5),(3,8),(4,5),(4,8)`
(values 1/3 and 3/1) cleared: a puzzle with exactly two completions. -/
def twoSolBoard : Board := mkBoard
  [[5, 3, 4, 6, 7, 8, 9, 1, 2],
   [6, 7, 2, 1, 9, 5, 3, 4, 8],
   [1, 9, 8, 3, 4, 2, 5, 6, 7],
   [8, 5, 9, 7, 6, 0, 4, 2, 0],
   [4, 2, 6, 8, 5, 0, 7, 9, 0],
   [7, 1, 3, 9, 2, 4, 8, 5, 6],
   [9, 6, 1, 5, 3, 7, 2, 8, 4],
   [2, 8, 7, 4, 1, 9, 6, 3, 5],
   [3, 4, 5, 2, 8, 6, 1, 7, 9]]

/-- The second completion of `twoSolBoard` (rectangle values swapped). -/
def fullGrid1 : Board := mkBoard
  [[5, 3, 4, 6, 7, 8, 9, 1, 2],
   [6, 7, 2, 1, 9, 5, 3, 4, 8],
   [1, 9, 8, 3, 4, 2, 5, 6, 7],
   [8, 5, 9, 7, 6, 3, 4, 2, 1],
   [4, 2, 6, 8, 5, 1, 7, 9, 3],
   [7, 1, 3, 9, 2, 4, 8, 5, 6],
   [9, 6, 1, 5, 3, 7, 2, 8, 4],
   [2, 8, 7, 4, 1, 9, 6, 3, 5],
   [3, 4, 5, 2, 8, 6, 1, 7, 9]]

/-- A fully assigned board breaking every Sudoku rule: all cells hold 1. -/
def allOnesBoard : Board := fun _ _ => 1

/-- The unshuffled stream: every cell visit tries the digits in order 1–9. -/
def idStream : Shuffle := fun _ => digits

theorem idStream_valid : ValidStream idStream := fun _ => List.Perm.refl digits

/-! Section: Basic lemmas about cells and extensions -/

theorem setCell_apply (b : Board) (r c : Fin 9) (v : ℕ) (i j : Fin 9) :
    setCell b r c v i j = if i = r ∧ j = c then v else b i j := rfl

theorem setCell_same (b : Board) (r c : Fin 9) (v : ℕ) :
    setCell b r c v r c = v := by
  simp [setCell]

theorem setCell_other (b : Board) (r c : Fin 9) (v : ℕ) {i j : Fin 9}
    (h : ¬(i = r ∧ j = c)) : setCell b r c v i j = b i j := by
  simp [setCell, h]

theorem setCell_setCell (b : Board) (r c : Fin 9) (v w : ℕ) :
    setCell (setCell b r c v) r c w = setCell b r c w := by
  funext i j
  by_cases h : i = r ∧ j = c <;> simp [setCell, h]

theorem setCell_self (b : Board) {r c : Fin 9} {v : ℕ} (h : b r c = v) :
    setCell b r c v = b := by
  funext i j
  rcases Decidable.em (i = r ∧ j = c) with h' | h'
  · obtain ⟨rfl, rfl⟩ := h'
    simp [setCell, h]
  · simp [setCell, h']

theorem extendsB_refl (b : Board) : extendsB b b := fun _ _ _ => rfl

theorem extendsB_trans {a b c : Board} (h₁ : extendsB a b) (h₂ : extendsB b c) :
    extendsB a c := by
  intro r cc hr
  rw [h₂ r cc (by rw [h₁ r cc hr]; exact hr), h₁ r cc hr]

theorem extendsB_setCell (b : Board) {r c : Fin 9} (h : b r c = 0) (v : ℕ) :
    extendsB b (setCell b r c v) := by
  intro i j hij
  have hne : ¬(i = r ∧ j = c) := by
    rintro ⟨rfl, rfl⟩; exact hij h
  exact setCell_other b r c v hne

theorem extendsB_setCell_zero {b b₂ : Board} {r c : Fin 9} (h : b r c = 0)
    (hext : extendsB b b₂) : extendsB b (setCell b₂ r c 0) := by
  intro i j hij
  have hne : ¬(i = r ∧ j = c) := by
    rintro ⟨rfl, rfl⟩; exact hij h
  rw [setCell_other b₂ r c 0 hne]
  exact hext i j hij

theorem extendsB_full_eq {b b' : Board} (hf : fullBoard b) (h : extendsB b b') :
    b' = b := by
  funext i j
  exact h i j (hf i j)

theorem mem_allCellsList (p : Fin 9 × Fin 9) : p ∈ allCellsList := by
  simp [allCellsList, List.mem_flatMap, List.mem_map]

theorem firstEmpty_some {b : Board} {rc : Fin 9 × Fin 9}
    (h : firstEmpty b = some rc) : b rc.1 rc.2 = 0 := by
  have := List.find?_some h
  simpa using this

theorem firstEmpty_none {b : Board} (h : firstEmpty b = none) : fullBoard b := by
  intro r c
  have := List.find?_eq_none.mp h (r, c) (mem_allCellsList (r, c))
  simpa using this

theorem ValidStream.tail {σ : Shuffle} (h : ValidStream σ) : ValidStream (tl σ) :=
  fun k => h (k + 1)

theorem mem_digits_iff (n : ℕ) : n ∈ digits ↔ 1 ≤ n ∧ n ≤ 9 := by
  simp [digits]
  omega

theorem emptyCount_le (b : Board) : emptyCount b ≤ 81 := by
  have h := Finset.card_filter_le (Finset.univ : Finset (Fin 9 × Fin 9))
    (fun p => b p.1 p.2 = 0)
  simpa using h

theorem emptyCount_setCell {b : Board} {r c : Fin 9} (h : b r c = 0) {n : ℕ}
    (hn : n ≠ 0) : emptyCount (setCell b r c n) + 1 = emptyCount b := by
  classical
  have hmem : (r, c) ∈ (Finset.univ.filter fun p : Fin 9 × Fin 9 => b p.1 p.2 = 0) := by
    simp [h]
  have hset : (Finset.univ.filter fun p : Fin 9 × Fin 9 => setCell b r c n p.1 p.2 = 0)
      = (Finset.univ.filter fun p : Fin 9 × Fin 9 => b p.1 p.2 = 0).erase (r, c) := by
    ext p
    rcases p with ⟨i, j⟩
    by_cases hij : i = r ∧ j = c
    · obtain ⟨rfl, rfl⟩ := hij
      simp [setCell_same, hn, Finset.mem_erase]
    · simp [Finset.mem_erase, setCell_other b r c n hij, Prod.ext_iff]
      intro hb
      rcases Decidable.not_and_iff_or_not.mp hij with h' | h'
      · exact fun hir => absurd hir h'
      · intro hir hjc
        exact absurd hjc h'
  rw [emptyCount, emptyCount, hset, Finset.card_erase_of_mem hmem]
  have : 0 < (Finset.univ.filter fun p : Fin 9 × Fin 9 => b p.1 p.2 = 0).card :=
    Finset.card_pos.mpr ⟨(r, c), hmem⟩
  omega

/-! Section: Unit lemmas -/

theorem unitCell_cellUnit (k : Fin 3) (r c : Fin 9) :
    unitCell k (cellUnit k r c) (cellPos k r c) = (r, c) := by
  obtain ⟨kv, hk⟩ := k
  interval_cases kv <;>
    simp [unitCell, cellUnit, cellPos, boxRow, boxCol, Prod.ext_iff, Fin.ext_iff] <;>
    try omega

theorem unitCell_eq_cell {k : Fin 3} {u p : Fin 9} {r c : Fin 9}
    (h : unitCell k u p = (r, c)) : u = cellUnit k r c ∧ p = cellPos k r c := by
  obtain ⟨kv, hk⟩ := k
  interval_cases kv <;>
    simp [unitCell, cellUnit, cellPos, boxRow, boxCol, Prod.ext_iff, Fin.ext_iff] at h ⊢ <;>
    omega

theorem unitCount_setCell_ne (b : Board) (r c : Fin 9) (v n : ℕ) (k : Fin 3)
    {u : Fin 9} (h : u ≠ cellUnit k r c) :
    unitCount (setCell b r c v) k u n = unitCount b k u n := by
  unfold unitCount
  congr 1
  apply Finset.filter_congr
  intro p _
  have hne : ¬((unitCell k u p).1 = r ∧ (unitCell k u p).2 = c) := by
    rintro ⟨h1, h2⟩
    have : unitCell k u p = (r, c) := Prod.ext h1 h2
    exact h (unitCell_eq_cell this).1
  rw [setCell_other b r c v hne]

theorem unitCount_setCell_of_ne (b : Board) (r c : Fin 9) {v n : ℕ}
    (hv : v ≠ n) (hb : b r c ≠ n) (k : Fin 3) (u : Fin 9) :
    unitCount (setCell b r c v) k u n = unitCount b k u n := by
  unfold unitCount
  congr 1
  apply Finset.filter_congr
  intro p _
  by_cases hpc : (unitCell k u p).1 = r ∧ (unitCell k u p).2 = c
  · obtain ⟨h1, h2⟩ := hpc
    rw [h1, h2, setCell_same]
    simp [hv, hb]
  · rw [setCell_other b r c v hpc]

theorem unitCount_setCell_add (b : Board) (r c : Fin 9) {n : ℕ}
    (hb : b r c ≠ n) (k : Fin 3) :
    unitCount (setCell b r c n) k (cellUnit k r c) n
      = unitCount b k (cellUnit k r c) n + 1 := by
  classical
  unfold unitCount
  have hkey : (Finset.univ.filter fun p : Fin 9 =>
      setCell b r c n (unitCell k (cellUnit k r c) p).1 (unitCell k (cellUnit k r c) p).2 = n)
      = insert (cellPos k r c) (Finset.univ.filter fun p : Fin 9 =>
          b (unitCell k (cellUnit k r c) p).1 (unitCell k (cellUnit k r c) p).2 = n) := by
    ext p
    simp only [Finset.mem_filter, Finset.mem_insert, Finset.mem_univ, true_and]
    by_cases hpc : (unitCell k (cellUnit k r c) p).1 = r ∧ (unitCell k (cellUnit k r c) p).2 = c
    · obtain ⟨h1, h2⟩ := hpc
      have hp : p = cellPos k r c := (unitCell_eq_cell (Prod.ext h1 h2)).2
      rw [h1, h2, setCell_same]
      simp [hp, fun h => hb (h1 ▸ h2 ▸ h)]
    · rw [setCell_other b r c n hpc]
      have hp : p ≠ cellPos k r c := by
        rintro rfl
        rw [unitCell_cellUnit] at hpc
        exact hpc ⟨rfl, rfl⟩
      simp [hp]
  rw [hkey, Finset.card_insert_of_not_mem]
  simp only [Finset.mem_filter, Finset.mem_univ, true_and]
  rw [unitCell_cellUnit]
  exact hb

theorem unitCount_mono {b b' : Board} (h : extendsB b b') {n : ℕ} (hn : n ≠ 0)
    (k : Fin 3) (u : Fin 9) : unitCount b k u n ≤ unitCount b' k u n := by
  apply Finset.card_le_card
  intro p hp
  simp only [Finset.mem_filter, Finset.mem_univ, true_and] at hp ⊢
  rw [h _ _ (by rw [hp]; exact hn)]
  exact hp

theorem isValid_true_iff (b : Board) (r c : Fin 9) (n : ℕ) :
    isValid b r c n = true ↔ ∀ k : Fin 3, unitCount b k (cellUnit k r c) n = 0 := by
  have hcard : ∀ (k : Fin 3),
      (unitCount b k (cellUnit k r c) n = 0 ↔
        ∀ p : Fin 9, b (unitCell k (cellUnit k r c) p).1 (unitCell k (cellUnit k r c) p).2 ≠ n) := by
    intro k
    unfold unitCount
    rw [Finset.card_eq_zero, Finset.filter_eq_empty_iff]
    simp
  constructor
  · intro h k
    simp only [isValid, Bool.and_eq_true, decide_eq_true_iff] at h
    obtain ⟨h1, h2⟩ := h
    rw [hcard]
    intro p
    obtain ⟨kv, hk⟩ := k
    interval_cases kv
    · simpa [unitCell, cellUnit] using (h1 p).1
    · simpa [unitCell, cellUnit] using (h1 p).2
    · have heq : unitCell ⟨2, hk⟩ (cellUnit ⟨2, hk⟩ r c) p
          = (boxCell r ⟨p.val / 3, by omega⟩, boxCell c ⟨p.val % 3, by omega⟩) := by
        simp [unitCell, cellUnit, boxRow, boxCol, boxCell, Prod.ext_iff, Fin.ext_iff]
        omega
      rw [heq]
      exact h2 ⟨p.val / 3, by omega⟩ ⟨p.val % 3, by omega⟩
  · intro h
    simp only [isValid, Bool.and_eq_true, decide_eq_true_iff]
    have h0 := (hcard 0).mp (h 0)
    have h1 := (hcard 1).mp (h 1)
    have h2 := (hcard 2).mp (h 2)
    refine ⟨fun i => ⟨?_, ?_⟩, fun i j => ?_⟩
    · simpa [unitCell, cellUnit] using h0 i
    · simpa [unitCell, cellUnit] using h1 i
    · have := h2 ⟨i.val * 3 + j.val, by omega⟩
      have heq : unitCell 2 (cellUnit 2 r c) ⟨i.val * 3 + j.val, by omega⟩
          = (boxCell r i, boxCell c j) := by
        simp [unitCell, cellUnit, boxRow, boxCol, boxCell, Prod.ext_iff, Fin.ext_iff]
        omega
      rw [heq] at this
      exact this

/-! Section: Consistency and validity -/

theorem unitCell_row (u p : Fin 9) : unitCell 0 u p = (u, p) := rfl

theorem unitCell_col (u p : Fin 9) : unitCell 1 u p = (p, u) := rfl

theorem forall_eq_one_of_sum_eq {s : Finset ℕ} {f : ℕ → ℕ}
    (hle : ∀ i ∈ s, f i ≤ 1) (hsum : ∑ i ∈ s, f i = s.card) :
    ∀ i ∈ s, f i = 1 := by
  intro i hi
  by_contra hne
  have hzero : f i = 0 := by
    have := hle i hi
    omega
  have hsplit : ∑ x ∈ s.erase i, f x + f i = ∑ x ∈ s, f x :=
    Finset.sum_erase_add s f hi
  have hbound : ∑ x ∈ s.erase i, f x ≤ (s.erase i).card := by
    calc ∑ x ∈ s.erase i, f x ≤ (s.erase i).card • 1 :=
          Finset.sum_le_card_nsmul _ _ 1 (fun x hx => hle x (Finset.mem_of_mem_erase hx))
      _ = (s.erase i).card := by simp
  have hcard : (s.erase i).card = s.card - 1 := Finset.card_erase_of_mem hi
  have hpos : 0 < s.card := Finset.card_pos.mpr ⟨i, hi⟩
  omega

theorem validBoard_of_full_consistent {b : Board} (hf : fullBoard b)
    (hc : Consistent b) : validBoard b := by
  intro n hn k u
  have hmap : ∀ p ∈ (Finset.univ : Finset (Fin 9)),
      b (unitCell k u p).1 (unitCell k u p).2 ∈ digits.toFinset := by
    intro p _
    rcases hc.1 (unitCell k u p).1 (unitCell k u p).2 with h | h
    · exact absurd h (hf _ _)
    · exact List.mem_toFinset.mpr h
  have hfib := Finset.card_eq_sum_card_fiberwise hmap
  have hterm : ∀ m ∈ digits.toFinset,
      ((Finset.univ : Finset (Fin 9)).filter
        fun p => b (unitCell k u p).1 (unitCell k u p).2 = m).card
      = unitCount b k u m := fun m _ => rfl
  have hcards : (Finset.univ : Finset (Fin 9)).card = 9 := by simp
  have hdig : (digits.toFinset).card = 9 := by decide
  have hsum : ∑ m ∈ digits.toFinset, unitCount b k u m = digits.toFinset.card := by
    rw [hdig]
    rw [hcards] at hfib
    rw [← Finset.sum_congr rfl hterm]
    omega
  exact forall_eq_one_of_sum_eq
    (fun m hm => hc.2 m (List.mem_toFinset.mp hm) k u) hsum n (List.mem_toFinset.mpr hn)

theorem validBoard_mem_digits {b : Board} (hv : validBoard b) (r c : Fin 9) :
    b r c ∈ digits := by
  classical
  set S := (Finset.univ : Finset (Fin 9)).filter (fun p => b r p ∈ digits.toFinset) with hS
  have hfib := Finset.card_eq_sum_card_fiberwise
    (s := S) (t := digits.toFinset) (f := fun p => b r p)
    (fun p hp => (Finset.mem_filter.mp hp).2)
  have hterm : ∀ m ∈ digits.toFinset,
      (S.filter fun p => b r p = m).card = 1 := by
    intro m hm
    have heq : S.filter (fun p => b r p = m)
        = (Finset.univ : Finset (Fin 9)).filter (fun p => b r p = m) := by
      ext p
      simp only [hS, Finset.mem_filter, Finset.mem_univ, true_and, and_iff_right_iff_imp]
      intro h
      rw [h]; exact hm
    rw [heq]
    have := hv m (List.mem_toFinset.mp hm) 0 r
    simpa [unitCount, unitCell_row] using this
  have hcard : S.card = 9 := by
    rw [hfib, Finset.sum_congr rfl hterm]
    decide
  have huniv : S = Finset.univ := Finset.eq_univ_of_card S (by rw [hcard]; simp)
  have : c ∈ S := huniv ▸ Finset.mem_univ c
  exact List.mem_toFinset.mp (Finset.mem_filter.mp this).2

theorem validBoard_consistent {b : Board} (hv : validBoard b) : Consistent b := by
  constructor
  · intro r c
    exact Or.inr (validBoard_mem_digits hv r c)
  · intro n hn k u
    rw [hv n hn k u]

theorem validBoard_full {b : Board} (hv : validBoard b) : fullBoard b := by
  intro r c
  have := validBoard_mem_digits hv r c
  rw [mem_digits_iff] at this
  omega

theorem Consistent_setCell {b : Board} (hc : Consistent b) {r c : Fin 9}
    (hz : b r c = 0) {n : ℕ} (hn : n ∈ digits)
    (hval : isValid b r c n = true) : Consistent (setCell b r c n) := by
  constructor
  · intro i j
    by_cases hij : i = r ∧ j = c
    · obtain ⟨rfl, rfl⟩ := hij
      rw [setCell_same]
      exact Or.inr hn
    · rw [setCell_other b r c n hij]
      exact hc.1 i j
  · intro m hm k u
    by_cases hu : u = cellUnit k r c
    · subst hu
      by_cases hmn : m = n
      · subst hmn
        rw [unitCount_setCell_add b r c (by rw [hz]; simp [mem_digits_iff] at hm; omega) k]
        rw [(isValid_true_iff b r c m).mp hval k]
      · rw [unitCount_setCell_of_ne b r c (fun h => hmn h.symm)
            (by rw [hz]; simp [mem_digits_iff] at hm; omega) k _]
        exact hc.2 m hm k _
    · rw [unitCount_setCell_ne b r c n m k hu]
      exact hc.2 m hm k u

/-! Section: Counting completions -/

set_option maxRecDepth 4000

theorem toBoard_mem_digits (g : DigitGrid) (r c : Fin 9) :
    toBoard g r c ∈ digits := by
  rw [mem_digits_iff, toBoard]
  have := (g.f r c).isLt
  omega

theorem toBoard_injective : Function.Injective toBoard := by
  intro g g' h
  cases g
  cases g'
  congr 1
  funext r c
  have := congrFun (congrFun h r) c
  rw [toBoard, toBoard] at this
  dsimp only at this
  exact Fin.ext (by omega)

theorem NC_pos_iff (b : Board) : 0 < NC b ↔ ∃ b', IsCompletion b b' := by
  constructor
  · intro h
    obtain ⟨g, hg⟩ := Finset.card_pos.mp h
    exact ⟨toBoard g, (Finset.mem_filter.mp hg).2⟩
  · rintro ⟨b', hfull, hvalid, hext⟩
    have hmem : ∀ r c : Fin 9, b' r c ∈ digits :=
      validBoard_mem_digits hvalid
    refine Finset.card_pos.mpr ⟨⟨fun r c => ⟨b' r c - 1, ?_⟩⟩, ?_⟩
    · have := (mem_digits_iff _).mp (hmem r c)
      omega
    · rw [Finset.mem_filter]
      refine ⟨Finset.mem_univ _, ?_⟩
      have hb : toBoard ⟨fun r c => (⟨b' r c - 1, by
          have := (mem_digits_iff _).mp (hmem r c); omega⟩ : Fin 9)⟩ = b' := by
        funext r c
        have := (mem_digits_iff _).mp (hmem r c)
        simp only [toBoard]
        omega
      rw [hb]
      exact ⟨hfull, hvalid, hext⟩

theorem NC_full {b : Board} (hf : fullBoard b) :
    NC b = if validBoard b then 1 else 0 := by
  classical
  by_cases hv : validBoard b
  · rw [if_pos hv]
    have hmem : ∀ r c : Fin 9, b r c ∈ digits := fun r c => by
      rcases (validBoard_consistent hv).1 r c with h | h
      · exact absurd h (hf r c)
      · exact h
    set g0 : DigitGrid := ⟨fun r c => ⟨b r c - 1, by
      have := (mem_digits_iff _).mp (hmem r c); omega⟩⟩ with hg0
    have hb0 : toBoard g0 = b := by
      funext r c
      have := (mem_digits_iff _).mp (hmem r c)
      simp only [toBoard, hg0]
      omega
    rw [NC, Finset.card_eq_one]
    refine ⟨g0, ?_⟩
    ext g
    simp only [Finset.mem_filter, Finset.mem_univ, true_and, Finset.mem_singleton]
    constructor
    · rintro ⟨-, -, hext⟩
      have : toBoard g = b := extendsB_full_eq hf hext
      exact toBoard_injective (by rw [this, hb0])
    · rintro rfl
      rw [hb0]
      exact ⟨hf, hv, extendsB_refl b⟩
  · rw [if_neg hv, NC, Finset.card_eq_zero, Finset.filter_eq_empty_iff]
    rintro g - ⟨-, hgv, hext⟩
    exact hv (extendsB_full_eq hf hext ▸ hgv)

theorem extendsB_setCell_iff {b : Board} {r c : Fin 9} (hz : b r c = 0)
    {n : ℕ} (hn : n ≠ 0) (b' : Board) :
    extendsB (setCell b r c n) b' ↔ extendsB b b' ∧ b' r c = n := by
  constructor
  · intro h
    refine ⟨?_, ?_⟩
    · intro i j hij
      have hne : ¬(i = r ∧ j = c) := by
        rintro ⟨rfl, rfl⟩; exact hij hz
      have := h i j (by rw [setCell_other b r c n hne]; exact hij)
      rwa [setCell_other b r c n hne] at this
    · have := h r c (by rw [setCell_same]; exact hn)
      rwa [setCell_same] at this
  · rintro ⟨hext, hrc⟩
    intro i j hij
    by_cases hne : i = r ∧ j = c
    · obtain ⟨rfl, rfl⟩ := hne
      rw [setCell_same, hrc]
    · rw [setCell_other b r c n hne] at hij ⊢
      exact hext i j hij

theorem IsCompletion_setCell_iff {b : Board} {r c : Fin 9} (hz : b r c = 0)
    {n : ℕ} (hn : n ≠ 0) (b' : Board) :
    IsCompletion (setCell b r c n) b' ↔ IsCompletion b b' ∧ b' r c = n := by
  unfold IsCompletion
  rw [extendsB_setCell_iff hz hn b']
  tauto

theorem NC_split_list {b : Board} {r c : Fin 9} (hz : b r c = 0) :
    NC b = (digits.map fun n => NC (setCell b r c n)).sum := by
  classical
  have hmap : ∀ g ∈ (Finset.univ.filter fun g : DigitGrid => IsCompletion b (toBoard g)),
      toBoard g r c ∈ digits.toFinset :=
    fun g _ => List.mem_toFinset.mpr (toBoard_mem_digits g r c)
  have hfib := Finset.card_eq_sum_card_fiberwise hmap
  have hterm : ∀ n ∈ digits.toFinset,
      ((Finset.univ.filter fun g : DigitGrid => IsCompletion b (toBoard g)).filter
        fun g => toBoard g r c = n).card = NC (setCell b r c n) := by
    intro n hn
    have hn0 : n ≠ 0 := by
      have := (mem_digits_iff n).mp (List.mem_toFinset.mp hn)
      omega
    rw [NC]
    congr 1
    rw [Finset.filter_filter]
    apply Finset.filter_congr
    intro g _
    rw [IsCompletion_setCell_iff hz hn0 (toBoard g)]
  rw [NC, hfib, Finset.sum_congr rfl hterm]
  exact List.sum_toFinset _ (by decide)

theorem NC_zero_of_isValid_false {b : Board} {r c : Fin 9} (hz : b r c = 0)
    {n : ℕ} (hn : n ∈ digits) (hval : isValid b r c n = false) :
    NC (setCell b r c n) = 0 := by
  have hn1 : 1 ≤ n ∧ n ≤ 9 := (mem_digits_iff n).mp hn
  rw [NC, Finset.card_eq_zero, Finset.filter_eq_empty_iff]
  rintro g - ⟨hfull, hvalid, hext⟩
  have hex : ¬ ∀ k : Fin 3, unitCount b k (cellUnit k r c) n = 0 := by
    intro hk
    rw [← isValid_true_iff] at hk
    rw [hval] at hk
    exact Bool.false_ne_true hk
  push_neg at hex
  obtain ⟨k, hkne⟩ := hex
  have h1 : unitCount (setCell b r c n) k (cellUnit k r c) n
      = unitCount b k (cellUnit k r c) n + 1 :=
    unitCount_setCell_add b r c (by omega) k
  have hmono : unitCount (setCell b r c n) k (cellUnit k r c) n
      ≤ unitCount (toBoard g) k (cellUnit k r c) n :=
    unitCount_mono hext (by omega) k _
  have hone := hvalid n hn k (cellUnit k r c)
  omega

theorem Consistent_anti {b b' : Board} (hext : extendsB b b')
    (hc : Consistent b') : Consistent b := by
  constructor
  · intro r c
    by_cases h : b r c = 0
    · exact Or.inl h
    · rcases hc.1 r c with h' | h'
      · rw [hext r c h] at h'
        exact absurd h' h
      · rw [hext r c h] at h'
        exact Or.inr h'
  · intro n hn k u
    have h1 : 1 ≤ n ∧ n ≤ 9 := (mem_digits_iff n).mp hn
    calc unitCount b k u n ≤ unitCount b' k u n := unitCount_mono hext (by omega) k u
      _ ≤ 1 := hc.2 n hn k u

theorem Consistent_of_NC_pos {b : Board} (h : 0 < NC b) : Consistent b := by
  obtain ⟨b', hfull, hvalid, hext⟩ := (NC_pos_iff b).mp h
  exact Consistent_anti hext (validBoard_consistent hvalid)

theorem NC_one_of_full_valid {b : Board} (hf : fullBoard b) (hv : validBoard b) :
    NC b = 1 := by
  rw [NC_full hf, if_pos hv]

/-! Section: Master specification of the counting search -/

/-- What one counting-mode search call does, relative to the number `S` of
completions it has left to discover: it reports whether the counter reached
the limit; if the limit is not reached the final counter is the old counter
plus `S` and the board is fully restored; randomness stays valid. -/
abbrev CountSpec (L : ℕ) (st : BtState) (out : Bool × BtState) (S : ℕ) : Prop :=
  out.1 = decide (L ≤ st.count + S) ∧
  (L ≤ st.count + S → L ≤ out.2.count) ∧
  (st.count + S < L → out.2.count = st.count + S ∧ out.2.board = st.board) ∧
  ValidStream out.2.rnd

theorem tryNums_count_spec {L : ℕ} (hL : 2 ≤ L) {fuel : ℕ}
    (hback : ∀ st : BtState, ValidStream st.rnd → Consistent st.board →
      emptyCount st.board < fuel → st.count < L →
      CountSpec L st (backtrack L fuel st) (NC st.board)) :
    ∀ (ns : List ℕ) (st : BtState) (r c : Fin 9),
      ValidStream st.rnd → Consistent st.board → st.board r c = 0 →
      emptyCount st.board ≤ fuel → st.count < L → (∀ n ∈ ns, n ∈ digits) →
      CountSpec L st (tryNums L (backtrack L fuel) r c ns st)
        ((ns.map fun n => NC (setCell st.board r c n)).sum) := by
  have hL1 : L ≠ 1 := by omega
  intro ns
  induction ns with
  | nil =>
    intro st r c hσ hc hz hfu hcnt hmem
    simp only [tryNums, if_neg hL1, List.map_nil, List.sum_nil]
    refine ⟨by simp, fun h => ?_, fun h => ⟨?_, rfl⟩, hσ⟩
    · dsimp only
      omega
    · dsimp only
      omega
  | cons n rest ih =>
    intro st r c hσ hc hz hfu hcnt hmem
    have hnd : n ∈ digits := hmem n (List.mem_cons_self n rest)
    have hrest : ∀ m ∈ rest, m ∈ digits := fun m hm => hmem m (List.mem_cons_of_mem n hm)
    have hn19 : 1 ≤ n ∧ n ≤ 9 := (mem_digits_iff n).mp hnd
    by_cases hv : isValid st.board r c n = true
    · -- the digit is tried: assign, recurse, then either return or undo
      have hecS : emptyCount (setCell st.board r c n) + 1 = emptyCount st.board :=
        emptyCount_setCell hz (by omega)
      have hchild := hback { st with board := setCell st.board r c n } hσ
        (Consistent_setCell hc hz hnd hv) (by dsimp only; omega) hcnt
      obtain ⟨hc1, hc2, hc3, hc4⟩ := hchild
      dsimp only at hc1 hc2 hc3
      simp only [tryNums, if_pos hv, if_neg hL1, List.map_cons, List.sum_cons]
      by_cases hcase : L ≤ st.count + NC (setCell st.board r c n)
      · -- the child reached the limit: early return with count++
        have hct : (backtrack L fuel { st with board := setCell st.board r c n }).1
            = true := by
          rw [hc1]; exact decide_eq_true hcase
        have hle := hc2 hcase
        rw [if_pos hct, if_pos (show L ≤ (backtrack L fuel
            { st with board := setCell st.board r c n }).2.count + 1 by omega)]
        refine ⟨?_, fun _ => ?_, fun h => absurd h (by omega), ?_⟩
        · dsimp only
          exact (decide_eq_true (by omega)).symm
        · dsimp only
          omega
        · dsimp only
          exact hc4
      · -- the child exhausted its branch: board restored, counter advanced
        push_neg at hcase
        have hcf : ¬ ((backtrack L fuel
            { st with board := setCell st.board r c n }).1 = true) := by
          rw [hc1, decide_eq_false (by omega)]
          exact Bool.false_ne_true
        obtain ⟨hcn, hcb⟩ := hc3 (by omega)
        have hboard : setCell (backtrack L fuel
            { st with board := setCell st.board r c n }).2.board r c 0 = st.board := by
          rw [hcb, setCell_setCell, setCell_self st.board hz]
        rw [if_neg hcf, hboard]
        have ihr := ih { (backtrack L fuel { st with board := setCell st.board r c n }).2
            with board := st.board } r c
          (by dsimp only; exact hc4) (by dsimp only; exact hc) (by dsimp only; exact hz)
          (by dsimp only; exact hfu) (by dsimp only; omega) hrest
        obtain ⟨hi1, hi2, hi3, hi4⟩ := ihr
        dsimp only at hi1 hi2 hi3 hi4
        refine ⟨?_, ?_, ?_, hi4⟩
        · rw [hi1, hcn]
          exact decide_eq_decide.mpr (by omega)
        · intro h
          exact hi2 (by omega)
        · intro h
          obtain ⟨h1, h2⟩ := hi3 (by omega)
          exact ⟨by omega, h2⟩
    · -- the digit conflicts: skip it; it admits no completions either
      have hzero : NC (setCell st.board r c n) = 0 :=
        NC_zero_of_isValid_false hz hnd (by revert hv; cases isValid st.board r c n <;> simp)
      simp only [tryNums, if_neg hv, List.map_cons, List.sum_cons, hzero, Nat.zero_add]
      exact ih st r c hσ hc hz hfu hcnt hrest

theorem backtrack_count_spec {L : ℕ} (hL : 2 ≤ L) :
    ∀ (fuel : ℕ) (st : BtState), ValidStream st.rnd → Consistent st.board →
      emptyCount st.board < fuel → st.count < L →
      CountSpec L st (backtrack L fuel st) (NC st.board) := by
  have hL1 : L ≠ 1 := by omega
  intro fuel
  induction fuel with
  | zero =>
    intro st _ _ hfu _
    exact absurd hfu (Nat.not_lt_zero _)
  | succ fuel ih =>
    intro st hσ hc hfu hcnt
    cases hfe : firstEmpty st.board with
    | none =>
      have hfull := firstEmpty_none hfe
      have hone := NC_one_of_full_valid hfull (validBoard_of_full_consistent hfull hc)
      simp only [backtrack, hfe, if_neg hL1, hone]
      exact ⟨rfl, fun h => by dsimp only; omega, fun h => ⟨rfl, rfl⟩, hσ⟩
    | some rc =>
      have hz : st.board rc.1 rc.2 = 0 := firstEmpty_some hfe
      have hperm : (st.rnd 0).Perm digits := hσ 0
      have hmem : ∀ n ∈ st.rnd 0, n ∈ digits := fun n hn => hperm.mem_iff.mp hn
      have htry := tryNums_count_spec hL ih (st.rnd 0)
        { st with rnd := tl st.rnd } rc.1 rc.2 (by dsimp only; exact hσ.tail)
        hc hz (by dsimp only; omega) hcnt hmem
      have hsum : ((st.rnd 0).map fun n => NC (setCell st.board rc.1 rc.2 n)).sum
          = NC st.board := by
        rw [NC_split_list hz]
        exact (hperm.map _).sum_eq
      rw [hsum] at htry
      obtain ⟨h1, h2, h3, h4⟩ := htry
      dsimp only at h1 h2 h3
      simp only [backtrack, hfe]
      exact ⟨h1, h2, h3, h4⟩

/-! Section: Master specification of the FindOne search -/

/-- What one `FindOne` search call does: it succeeds exactly when the board
has a completion (`S` abstracts the number of completions of the branch), in
which case the final board is such a completion; on failure the board is
restored; randomness stays valid. -/
abbrev OneSpec (st : BtState) (out : Bool × BtState) (S : ℕ) : Prop :=
  out.1 = decide (0 < S) ∧
  (0 < S → IsCompletion st.board out.2.board) ∧
  (S = 0 → out.2.board = st.board) ∧
  ValidStream out.2.rnd

theorem IsCompletion_of_setCell {b : Board} {r c : Fin 9} (hz : b r c = 0)
    {n : ℕ} {b' : Board} (h : IsCompletion (setCell b r c n) b') :
    IsCompletion b b' :=
  ⟨h.1, h.2.1, extendsB_trans (extendsB_setCell b hz n) h.2.2⟩

theorem tryNums_one_spec {fuel : ℕ}
    (hback : ∀ st : BtState, ValidStream st.rnd → Consistent st.board →
      emptyCount st.board < fuel →
      OneSpec st (backtrack 1 fuel st) (NC st.board)) :
    ∀ (ns : List ℕ) (st : BtState) (r c : Fin 9),
      ValidStream st.rnd → Consistent st.board → st.board r c = 0 →
      emptyCount st.board ≤ fuel → (∀ n ∈ ns, n ∈ digits) →
      OneSpec st (tryNums 1 (backtrack 1 fuel) r c ns st)
        ((ns.map fun n => NC (setCell st.board r c n)).sum) := by
  intro ns
  induction ns with
  | nil =>
    intro st r c hσ hc hz hfu hmem
    simp only [tryNums, if_pos rfl, List.map_nil, List.sum_nil]
    exact ⟨by simp, fun h => absurd h (by omega), fun _ => rfl, hσ⟩
  | cons n rest ih =>
    intro st r c hσ hc hz hfu hmem
    have hnd : n ∈ digits := hmem n (List.mem_cons_self n rest)
    have hrest : ∀ m ∈ rest, m ∈ digits := fun m hm => hmem m (List.mem_cons_of_mem n hm)
    have hn19 : 1 ≤ n ∧ n ≤ 9 := (mem_digits_iff n).mp hnd
    by_cases hv : isValid st.board r c n = true
    · have hecS : emptyCount (setCell st.board r c n) + 1 = emptyCount st.board :=
        emptyCount_setCell hz (by omega)
      have hchild := hback { st with board := setCell st.board r c n } hσ
        (Consistent_setCell hc hz hnd hv) (by dsimp only; omega)
      obtain ⟨hc1, hc2, hc3, hc4⟩ := hchild
      dsimp only at hc1 hc2 hc3
      simp only [tryNums, if_pos hv, if_pos rfl, List.map_cons, List.sum_cons]
      by_cases hcase : 0 < NC (setCell st.board r c n)
      · -- the recursion succeeded: propagate immediately, assignment kept
        have hct : (backtrack 1 fuel { st with board := setCell st.board r c n }).1
            = true := by
          rw [hc1]; exact decide_eq_true hcase
        rw [if_pos hct]
        refine ⟨?_, fun _ => ?_, fun h => absurd h (by omega), hc4⟩
        · exact (decide_eq_true (by omega)).symm
        · exact IsCompletion_of_setCell hz (hc2 hcase)
      · -- the recursion failed: undo the assignment and try the next digit
        have hN0 : NC (setCell st.board r c n) = 0 := by omega
        have hcf : ¬ ((backtrack 1 fuel
            { st with board := setCell st.board r c n }).1 = true) := by
          rw [hc1, decide_eq_false (by omega)]
          exact Bool.false_ne_true
        have hboard : setCell (backtrack 1 fuel
            { st with board := setCell st.board r c n }).2.board r c 0 = st.board := by
          rw [hc3 hN0, setCell_setCell, setCell_self st.board hz]
        rw [if_neg hcf, hboard]
        have ihr := ih { (backtrack 1 fuel { st with board := setCell st.board r c n }).2
            with board := st.board } r c
          (by dsimp only; exact hc4) (by dsimp only; exact hc) (by dsimp only; exact hz)
          (by dsimp only; exact hfu) hrest
        obtain ⟨hi1, hi2, hi3, hi4⟩ := ihr
        dsimp only at hi1 hi2 hi3 hi4
        refine ⟨?_, ?_, ?_, hi4⟩
        · rw [hN0, Nat.zero_add]
          exact hi1
        · intro h
          exact hi2 (by omega)
        · intro h
          exact hi3 (by omega)
    · have hzero : NC (setCell st.board r c n) = 0 :=
        NC_zero_of_isValid_false hz hnd (by revert hv; cases isValid st.board r c n <;> simp)
      simp only [tryNums, if_neg hv, List.map_cons, List.sum_cons, hzero, Nat.zero_add]
      exact ih st r c hσ hc hz hfu hrest

theorem backtrack_one_spec :
    ∀ (fuel : ℕ) (st : BtState), ValidStream st.rnd → Consistent st.board →
      emptyCount st.board < fuel →
      OneSpec st (backtrack 1 fuel st) (NC st.board) := by
  intro fuel
  induction fuel with
  | zero =>
    intro st _ _ hfu
    exact absurd hfu (Nat.not_lt_zero _)
  | succ fuel ih =>
    intro st hσ hc hfu
    cases hfe : firstEmpty st.board with
    | none =>
      have hfull := firstEmpty_none hfe
      have hvalid := validBoard_of_full_consistent hfull hc
      have hone := NC_one_of_full_valid hfull hvalid
      simp only [backtrack, hfe, if_pos rfl, hone]
      exact ⟨by simp, fun _ => ⟨hfull, hvalid, extendsB_refl _⟩,
        fun h => absurd h (by omega), hσ⟩
    | some rc =>
      have hz : st.board rc.1 rc.2 = 0 := firstEmpty_some hfe
      have hperm : (st.rnd 0).Perm digits := hσ 0
      have hmem : ∀ n ∈ st.rnd 0, n ∈ digits := fun n hn => hperm.mem_iff.mp hn
      have htry := tryNums_one_spec ih (st.rnd 0)
        { st with rnd := tl st.rnd } rc.1 rc.2 (by dsimp only; exact hσ.tail)
        hc hz (by dsimp only; omega) hmem
      have hsum : ((st.rnd 0).map fun n => NC (setCell st.board rc.1 rc.2 n)).sum
          = NC st.board := by
        rw [NC_split_list hz]
        exact (hperm.map _).sum_eq
      rw [hsum] at htry
      obtain ⟨h1, h2, h3, h4⟩ := htry
      dsimp only at h1 h2 h3
      simp only [backtrack, hfe]
      exact ⟨h1, h2, h3, h4⟩

/-! Section: Frame property of the FindOne search -/

theorem tryNums_one_frame {fuel : ℕ}
    (hback : ∀ st : BtState, extendsB st.board (backtrack 1 fuel st).2.board) :
    ∀ (ns : List ℕ) (st : BtState) (r c : Fin 9), st.board r c = 0 →
      extendsB st.board (tryNums 1 (backtrack 1 fuel) r c ns st).2.board := by
  intro ns
  induction ns with
  | nil =>
    intro st r c hz
    simp only [tryNums, if_pos rfl]
    exact extendsB_refl _
  | cons n rest ih =>
    intro st r c hz
    by_cases hv : isValid st.board r c n = true
    · simp only [tryNums, if_pos hv, if_pos rfl]
      have hchild := hback { st with board := setCell st.board r c n }
      dsimp only at hchild
      have hext1 : extendsB st.board
          (backtrack 1 fuel { st with board := setCell st.board r c n }).2.board :=
        extendsB_trans (extendsB_setCell st.board hz n) hchild
      by_cases hr : (backtrack 1 fuel { st with board := setCell st.board r c n }).1 = true
      · rw [if_pos hr]
        exact hext1
      · rw [if_neg hr]
        have hz2 : setCell (backtrack 1 fuel
            { st with board := setCell st.board r c n }).2.board r c 0 r c = 0 :=
          setCell_same _ r c 0
        have hext2 : extendsB st.board (setCell (backtrack 1 fuel
            { st with board := setCell st.board r c n }).2.board r c 0) :=
          extendsB_setCell_zero hz hext1
        have := ih { (backtrack 1 fuel { st with board := setCell st.board r c n }).2
            with board := setCell (backtrack 1 fuel
              { st with board := setCell st.board r c n }).2.board r c 0 } r c
          (by dsimp only; exact hz2)
        exact extendsB_trans hext2 this
    · simp only [tryNums, if_neg hv]
      exact ih st r c hz

theorem backtrack_one_frame :
    ∀ (fuel : ℕ) (st : BtState), extendsB st.board (backtrack 1 fuel st).2.board := by
  intro fuel
  induction fuel with
  | zero =>
    intro st
    exact extendsB_refl _
  | succ fuel ih =>
    intro st
    cases hfe : firstEmpty st.board with
    | none =>
      simp only [backtrack, hfe, if_pos rfl]
      exact extendsB_refl _
    | some rc =>
      have hz : st.board rc.1 rc.2 = 0 := firstEmpty_some hfe
      simp only [backtrack, hfe]
      exact tryNums_one_frame ih (st.rnd 0) { st with rnd := tl st.rnd } rc.1 rc.2 hz

/-! Section: Top-level solver facts -/

theorem emptyCount_lt_82 (b : Board) : emptyCount b < 82 := by
  have := emptyCount_le b
  omega

theorem solveCount_eq_of_lt (L : ℕ) (hL : 2 ≤ L) {σ : Shuffle} (hσ : ValidStream σ)
    {b : Board} (hc : Consistent b) (h : NC b < L) : solveCount σ b L = NC b := by
  have hs := backtrack_count_spec hL 82 { board := b, rnd := σ, count := 0 } hσ hc
    (by dsimp only; exact emptyCount_lt_82 b) (by dsimp only; omega)
  obtain ⟨-, -, h3, -⟩ := hs
  dsimp only at h3
  obtain ⟨h3c, -⟩ := h3 (by omega)
  rw [solveCount, solve, h3c]
  omega

theorem solveCount_ge_of_ge (L : ℕ) (hL : 2 ≤ L) {σ : Shuffle} (hσ : ValidStream σ)
    {b : Board} (hc : Consistent b) (h : L ≤ NC b) : L ≤ solveCount σ b L := by
  have hs := backtrack_count_spec hL 82 { board := b, rnd := σ, count := 0 } hσ hc
    (by dsimp only; exact emptyCount_lt_82 b) (by dsimp only; omega)
  obtain ⟨-, h2, -, -⟩ := hs
  dsimp only at h2
  exact h2 (by omega)

theorem solveCount_eq_one_iff {σ : Shuffle} (hσ : ValidStream σ) {b : Board}
    (hc : Consistent b) : solveCount σ b 2 = 1 ↔ NC b = 1 := by
  constructor
  · intro h
    by_cases hlt : NC b < 2
    · have := solveCount_eq_of_lt 2 (by omega) hσ hc hlt
      omega
    · have := solveCount_ge_of_ge 2 (by omega) hσ hc (by omega)
      omega
  · intro h
    rw [solveCount_eq_of_lt 2 (by omega) hσ hc (by omega), h]

theorem solveCount_rnd_valid (L : ℕ) (hL : 2 ≤ L) {σ : Shuffle} (hσ : ValidStream σ)
    {b : Board} (hc : Consistent b) : ValidStream (solve σ b L).2.rnd := by
  have hs := backtrack_count_spec hL 82 { board := b, rnd := σ, count := 0 } hσ hc
    (by dsimp only; exact emptyCount_lt_82 b) (by dsimp only; omega)
  exact hs.2.2.2

theorem solveOne_true_iff {σ : Shuffle} (hσ : ValidStream σ) {b : Board}
    (hc : Consistent b) : (solve σ b 1).1 = true ↔ ∃ b', IsCompletion b b' := by
  have hs := backtrack_one_spec 82 { board := b, rnd := σ, count := 0 } hσ hc
    (by dsimp only; exact emptyCount_lt_82 b)
  obtain ⟨h1, -, -, -⟩ := hs
  dsimp only at h1
  rw [solve, h1]
  rw [decide_eq_true_iff]
  exact ⟨fun h => (NC_pos_iff b).mp h, fun h => (NC_pos_iff b).mpr h⟩

theorem solveOne_completion {σ : Shuffle} (hσ : ValidStream σ) {b : Board}
    (hc : Consistent b) (h : 0 < NC b) : IsCompletion b (solveBoard σ b 1) := by
  have hs := backtrack_one_spec 82 { board := b, rnd := σ, count := 0 } hσ hc
    (by dsimp only; exact emptyCount_lt_82 b)
  exact hs.2.1 h

theorem solveBoard_extends (σ : Shuffle) (b : Board) :
    extendsB b (solveBoard σ b 1) :=
  backtrack_one_frame 82 { board := b, rnd := σ, count := 0 }

theorem generateFullGrid_spec {σ : Shuffle} (hσ : ValidStream σ) :
    fullBoard (generateFullGrid σ).1 ∧ validBoard (generateFullGrid σ).1 ∧
      ValidStream (generateFullGrid σ).2 := by
  have hc : Consistent emptyBoard := by
    constructor
    · intro r c
      exact Or.inl rfl
    · intro n hn k u
      have h19 := (mem_digits_iff n).mp hn
      have : unitCount emptyBoard k u n = 0 := by
        rw [unitCount, Finset.card_eq_zero, Finset.filter_eq_empty_iff]
        intro p _
        show ¬ (0 = n)
        omega
      omega
  have hpos : 0 < NC emptyBoard := by
    rw [NC_pos_iff]
    refine ⟨fullGrid0, ?_⟩
    have : IsCompletion emptyBoard fullGrid0 := by decide
    exact this
  have hs := backtrack_one_spec 82 { board := emptyBoard, rnd := σ, count := 0 } hσ hc
    (by dsimp only; exact emptyCount_lt_82 emptyBoard)
  obtain ⟨-, h2, -, h4⟩ := hs
  have hcompl := h2 hpos
  exact ⟨hcompl.1, hcompl.2.1, h4⟩

/-! Section: Generator loop lemmas -/

theorem clueCount_setCell_zero {b : Board} {r c : Fin 9} (h : b r c ≠ 0) :
    clueCount (setCell b r c 0) + 1 = clueCount b := by
  classical
  have hmem : (r, c) ∈ (Finset.univ.filter fun p : Fin 9 × Fin 9 => b p.1 p.2 ≠ 0) := by
    simp [h]
  have hset : (Finset.univ.filter fun p : Fin 9 × Fin 9 => setCell b r c 0 p.1 p.2 ≠ 0)
      = (Finset.univ.filter fun p : Fin 9 × Fin 9 => b p.1 p.2 ≠ 0).erase (r, c) := by
    ext p
    rcases p with ⟨i, j⟩
    by_cases hij : i = r ∧ j = c
    · obtain ⟨rfl, rfl⟩ := hij
      simp [setCell_same, Finset.mem_erase]
    · simp only [Finset.mem_filter, Finset.mem_univ, true_and, Finset.mem_erase,
        setCell_other b r c 0 hij]
      constructor
      · intro hb
        refine ⟨?_, hb⟩
        intro hpe
        rw [Prod.ext_iff] at hpe
        exact hij hpe
      · exact fun hb => hb.2
  rw [clueCount, clueCount, hset, Finset.card_erase_of_mem hmem]
  have : 0 < (Finset.univ.filter fun p : Fin 9 × Fin 9 => b p.1 p.2 ≠ 0).card :=
    Finset.card_pos.mpr ⟨(r, c), hmem⟩
  omega

theorem clueCount_full {b : Board} (h : fullBoard b) : clueCount b = 81 := by
  rw [clueCount]
  have : (Finset.univ.filter fun p : Fin 9 × Fin 9 => b p.1 p.2 ≠ 0) = Finset.univ := by
    rw [Finset.filter_eq_self]
    intro p _
    exact h p.1 p.2
  rw [this]
  simp

/-- Decomposition of the popped cell: `cells = dropLast ++ [rc]`. -/
theorem cells_split {l : List (Fin 9 × Fin 9)} {rc : Fin 9 × Fin 9}
    (h : l.getLast? = some rc) : l.dropLast ++ [rc] = l :=
  List.dropLast_append_getLast? rc (by rw [h]; rfl)

theorem getLast_mem_of_some {l : List (Fin 9 × Fin 9)} {rc : Fin 9 × Fin 9}
    (h : l.getLast? = some rc) : rc ∈ l := by
  rw [← cells_split h]
  simp

theorem getLast_not_mem_dropLast {l : List (Fin 9 × Fin 9)} {rc : Fin 9 × Fin 9}
    (hnd : l.Nodup) (h : l.getLast? = some rc) : rc ∉ l.dropLast := by
  rw [← cells_split h] at hnd
  have := List.disjoint_of_nodup_append hnd
  intro hmem
  exact this hmem (by simp)

theorem nodup_dropLast {l : List (Fin 9 × Fin 9)} (hnd : l.Nodup) :
    l.dropLast.Nodup :=
  List.Nodup.sublist (List.dropLast_sublist l) hnd

/-- Reduction of `genBody` with a cell available, the `match` resolved. -/
theorem genBody_eq (d : String) (st : GenState) {rc : Fin 9 × Fin 9}
    (h : st.cells.getLast? = some rc) :
    genBody d st =
      (if solveCount st.rnd (setCell st.puzzle rc.1 rc.2 0) 2 = 1 ∧
          (if usesGate d then
            decide (getRequiredTechniqueLevel (setCell st.puzzle rc.1 rc.2 0)
              ≠ .REQUIRES_ADVANCED) else true) = true then
        { puzzle := setCell st.puzzle rc.1 rc.2 0, clues := st.clues - 1,
          attempts := 0, cells := st.cells.dropLast,
          rnd := (solve st.rnd (setCell st.puzzle rc.1 rc.2 0) 2).2.rnd }
      else
        { puzzle := setCell (setCell st.puzzle rc.1 rc.2 0) rc.1 rc.2
            (st.puzzle rc.1 rc.2), clues := st.clues,
          attempts := st.attempts + 1, cells := rc :: st.cells.dropLast,
          rnd := (solve st.rnd (setCell st.puzzle rc.1 rc.2 0) 2).2.rnd }) := by
  rw [genBody, h]
  rfl

theorem genBody_none (d : String) (st : GenState)
    (h : st.cells.getLast? = none) : genBody d st = st := by
  rw [genBody, h]


/-- Restoring a cleared cell gives back the original board. -/
theorem restore_setCell (p : Board) (r c : Fin 9) :
    setCell (setCell p r c 0) r c (p r c) = p := by
  rw [setCell_setCell, setCell_self p rfl]

theorem loopDone_false {t : ℕ} {st : GenState} (h : loopDone t st = false) :
    t < st.clues ∧ st.cells ≠ [] ∧ st.attempts < 50 := by
  rw [loopDone, maxAttemptsPerRemoval] at h
  simp only [Bool.or_eq_false_iff, Bool.not_eq_false', decide_eq_true_eq,
    decide_eq_false_iff_not, Nat.not_le] at h
  refine ⟨h.1.1, ?_, h.2⟩
  have := h.1.2
  simpa using this

theorem loopDone_getLast {t : ℕ} {st : GenState} (h : loopDone t st = false) :
    ∃ rc, st.cells.getLast? = some rc := by
  obtain ⟨-, hne, -⟩ := loopDone_false h
  cases hl : st.cells.getLast? with
  | none =>
    rw [List.getLast?_eq_none_iff] at hl
    exact absurd hl hne
  | some rc => exact ⟨rc, rfl⟩

/-- The loop invariant of the clue count: the number of non-EMPTY cells of
the working puzzle equals the `clues` counter, the queued cells are distinct,
and every queued cell is still a clue. -/
abbrev GenInv (st : GenState) : Prop :=
  clueCount st.puzzle = st.clues ∧ st.cells.Nodup ∧
    ∀ p ∈ st.cells, st.puzzle p.1 p.2 ≠ 0

theorem genBody_inv (d : String) (st : GenState) (h : GenInv st) :
    GenInv (genBody d st) ∧ (genBody d st).clues ≤ st.clues := by
  obtain ⟨hcc, hnd, hclue⟩ := h
  cases hl : st.cells.getLast? with
  | none =>
    rw [genBody_none d st hl]
    exact ⟨⟨hcc, hnd, hclue⟩, le_refl _⟩
  | some rc =>
    rw [genBody_eq d st hl]
    have hrc : st.puzzle rc.1 rc.2 ≠ 0 := hclue rc (getLast_mem_of_some hl)
    have hdropn : rc ∉ st.cells.dropLast := getLast_not_mem_dropLast hnd hl
    have hcount : clueCount (setCell st.puzzle rc.1 rc.2 0) + 1 = clueCount st.puzzle :=
      clueCount_setCell_zero hrc
    by_cases hacc : solveCount st.rnd (setCell st.puzzle rc.1 rc.2 0) 2 = 1 ∧
        (if usesGate d then
          decide (getRequiredTechniqueLevel (setCell st.puzzle rc.1 rc.2 0)
            ≠ .REQUIRES_ADVANCED) else true) = true
    · rw [if_pos hacc]
      refine ⟨⟨?_, ?_, ?_⟩, ?_⟩
      · dsimp only
        omega
      · exact nodup_dropLast hnd
      · intro q hq
        dsimp only
        have hqmem : q ∈ st.cells := (List.dropLast_sublist st.cells).subset hq
        have hqne : ¬(q.1 = rc.1 ∧ q.2 = rc.2) := by
          intro hpe
          exact hdropn (by
            have : q = rc := Prod.ext hpe.1 hpe.2
            rwa [this] at hq)
        rw [setCell_other _ _ _ _ hqne]
        exact hclue q hqmem
      · dsimp only
        omega
    · rw [if_neg hacc]
      refine ⟨⟨?_, ?_, ?_⟩, ?_⟩
      · dsimp only
        rw [restore_setCell]
        exact hcc
      · dsimp only
        exact List.nodup_cons.mpr ⟨hdropn, nodup_dropLast hnd⟩
      · intro q hq
        dsimp only
        rw [restore_setCell]
        rcases List.mem_cons.mp hq with rfl | hq'
        · exact hrc
        · exact hclue q ((List.dropLast_sublist st.cells).subset hq')
      · exact le_refl _

theorem genBody_clues_ge {t : ℕ} (d : String) (st : GenState)
    (hdone : loopDone t st = false) : t ≤ (genBody d st).clues := by
  obtain ⟨hlt, -, -⟩ := loopDone_false hdone
  obtain ⟨rc, hl⟩ := loopDone_getLast hdone
  rw [genBody_eq d st hl]
  by_cases hacc : solveCount st.rnd (setCell st.puzzle rc.1 rc.2 0) 2 = 1 ∧
      (if usesGate d then
        decide (getRequiredTechniqueLevel (setCell st.puzzle rc.1 rc.2 0)
          ≠ .REQUIRES_ADVANCED) else true) = true
  · rw [if_pos hacc]
    dsimp only
    omega
  · rw [if_neg hacc]
    dsimp only
    omega

/-- Any property preserved by the body on non-terminated states is a loop
invariant. -/
theorem genLoop_pres {t : ℕ} {d : String} {P : GenState → Prop}
    (hP : ∀ st, loopDone t st = false → P st → P (genBody d st)) :
    ∀ fuel st, P st → P (genLoop t d fuel st) := by
  intro fuel
  induction fuel with
  | zero => exact fun st h => h
  | succ fuel ih =>
    intro st h
    rw [genLoop]
    by_cases hdone : loopDone t st = true
    · rw [if_pos hdone]
      exact h
    · rw [if_neg hdone]
      exact ih _ (hP st (by revert hdone; cases loopDone t st <;> simp) h)

/-- The uniqueness invariant of the working puzzle: one completion, and the
randomness still valid. -/
abbrev GoodGen (st : GenState) : Prop := NC st.puzzle = 1 ∧ ValidStream st.rnd

theorem genBody_good (d : String) (st : GenState) (h : GoodGen st) :
    GoodGen (genBody d st) := by
  obtain ⟨hnc, hσ⟩ := h
  cases hl : st.cells.getLast? with
  | none =>
    rw [genBody_none d st hl]
    exact ⟨hnc, hσ⟩
  | some rc =>
    rw [genBody_eq d st hl]
    have hconsP : Consistent st.puzzle := Consistent_of_NC_pos (by omega)
    have hext : extendsB (setCell st.puzzle rc.1 rc.2 0) st.puzzle := by
      intro i j hij
      by_cases hne : i = rc.1 ∧ j = rc.2
      · obtain ⟨h1, h2⟩ := hne
        subst h1
        subst h2
        rw [setCell_same] at hij
        exact absurd rfl hij
      · rw [setCell_other _ _ _ _ hne] at hij ⊢
    have hcons1 : Consistent (setCell st.puzzle rc.1 rc.2 0) :=
      Consistent_anti hext hconsP
    by_cases hacc : solveCount st.rnd (setCell st.puzzle rc.1 rc.2 0) 2 = 1 ∧
        (if usesGate d then
          decide (getRequiredTechniqueLevel (setCell st.puzzle rc.1 rc.2 0)
            ≠ .REQUIRES_ADVANCED) else true) = true
    · rw [if_pos hacc]
      refine ⟨?_, ?_⟩
      · dsimp only
        exact (solveCount_eq_one_iff hσ hcons1).mp hacc.1
      · dsimp only
        exact solveCount_rnd_valid 2 (le_refl 2) hσ hcons1
    · rw [if_neg hacc]
      refine ⟨?_, ?_⟩
      · dsimp only
        rw [restore_setCell]
        exact hnc
      · dsimp only
        exact solveCount_rnd_valid 2 (le_refl 2) hσ hcons1

/-- Termination measure of the removal loop. -/
def genMeasure (st : GenState) : ℕ := st.clues * 51 + (50 - st.attempts)

theorem genBody_measure_lt {t : ℕ} (d : String) (st : GenState)
    (hdone : loopDone t st = false) :
    genMeasure (genBody d st) < genMeasure st := by
  obtain ⟨hlt, -, hatt⟩ := loopDone_false hdone
  obtain ⟨rc, hl⟩ := loopDone_getLast hdone
  rw [genBody_eq d st hl]
  by_cases hacc : solveCount st.rnd (setCell st.puzzle rc.1 rc.2 0) 2 = 1 ∧
      (if usesGate d then
        decide (getRequiredTechniqueLevel (setCell st.puzzle rc.1 rc.2 0)
          ≠ .REQUIRES_ADVANCED) else true) = true
  · rw [if_pos hacc, genMeasure, genMeasure]
    dsimp only
    omega
  · rw [if_neg hacc, genMeasure, genMeasure]
    dsimp only
    omega

theorem genLoop_done {t : ℕ} {d : String} :
    ∀ (fuel : ℕ) (st : GenState), genMeasure st ≤ fuel →
      loopDone t (genLoop t d fuel st) = true := by
  intro fuel
  induction fuel with
  | zero =>
    intro st h
    rw [genLoop]
    by_contra hne
    have hfalse : loopDone t st = false := by
      revert hne; cases loopDone t st <;> simp
    obtain ⟨hlt, -, hatt⟩ := loopDone_false hfalse
    rw [genMeasure] at h
    omega
  | succ fuel ih =>
    intro st h
    rw [genLoop]
    by_cases hdone : loopDone t st = true
    · rw [if_pos hdone]
      exact hdone
    · have hfalse : loopDone t st = false := by
        revert hdone; cases loopDone t st <;> simp
      rw [if_neg hdone]
      exact ih _ (by have := genBody_measure_lt d st hfalse; omega)

theorem genLoop_abort {t : ℕ} {d : String} (fuel : ℕ) (st : GenState)
    (h : 50 ≤ st.attempts) : genLoop t d fuel st = st := by
  cases fuel with
  | zero => rw [genLoop]
  | succ fuel =>
    rw [genLoop, if_pos]
    simp [loopDone, maxAttemptsPerRemoval, h]

/-! Section: Classifier characterization -/

theorem nakedAny_iff (b : Board) :
    (allCellsList.any fun p => (findCandidates b p.1 p.2).length == 1) = true ↔
      ∃ r c : Fin 9, b r c = 0 ∧ (findCandidates b r c).length = 1 := by
  rw [List.any_eq_true]
  constructor
  · rintro ⟨p, -, hp⟩
    rw [beq_iff_eq] at hp
    refine ⟨p.1, p.2, ?_, hp⟩
    by_contra hz
    rw [findCandidates, if_pos hz] at hp
    simp at hp
  · rintro ⟨r, c, -, hlen⟩
    exact ⟨(r, c), mem_allCellsList (r, c), by rw [beq_iff_eq]; exact hlen⟩

theorem hiddenAny_iff (b : Board) :
    ((List.finRange 9).any fun i => digits.any fun n =>
      rowSingleCount b i n == 1 || colSingleCount b i n == 1 ||
      boxSingleCount b i n == 1) = true ↔
      ∃ i : Fin 9, ∃ n ∈ digits, rowSingleCount b i n = 1 ∨
        colSingleCount b i n = 1 ∨ boxSingleCount b i n = 1 := by
  rw [List.any_eq_true]
  constructor
  · rintro ⟨i, -, hi⟩
    rw [List.any_eq_true] at hi
    obtain ⟨n, hn, h⟩ := hi
    rw [Bool.or_eq_true, Bool.or_eq_true, beq_iff_eq, beq_iff_eq, beq_iff_eq] at h
    exact ⟨i, n, hn, by tauto⟩
  · rintro ⟨i, n, hn, h⟩
    refine ⟨i, List.mem_finRange i, ?_⟩
    rw [List.any_eq_true]
    refine ⟨n, hn, ?_⟩
    rw [Bool.or_eq_true, Bool.or_eq_true, beq_iff_eq, beq_iff_eq, beq_iff_eq]
    tauto

theorem solvedAll_iff (b : Board) :
    (allCellsList.all fun p => b p.1 p.2 != 0) = true ↔ fullBoard b := by
  rw [List.all_eq_true]
  constructor
  · intro h r c
    have := h (r, c) (mem_allCellsList (r, c))
    rwa [bne_iff_ne] at this
  · intro h p _
    rw [bne_iff_ne]
    exact h p.1 p.2

/-! Section: Claim theorems -/

/-- C6: for every grid, `getRequiredTechniqueLevel` returns EASY_SINGLE iff
some empty cell has exactly one candidate (naked single) or some unit (row,
column, or box) has exactly one cell admitting some digit among its
candidates (hidden single); otherwise it returns SOLVED iff the grid has no
empty cells, and REQUIRES_ADVANCED otherwise.  (The function is pure: in this
embedding it reads the board and returns only a classification.) -/
theorem C6_classifier_characterization (b : Board) :
    (getRequiredTechniqueLevel b = .EASY_SINGLE ↔
      ((∃ r c : Fin 9, b r c = 0 ∧ (findCandidates b r c).length = 1) ∨
       (∃ i : Fin 9, ∃ n ∈ digits, rowSingleCount b i n = 1 ∨
         colSingleCount b i n = 1 ∨ boxSingleCount b i n = 1))) ∧
    (getRequiredTechniqueLevel b ≠ .EASY_SINGLE →
      ((getRequiredTechniqueLevel b = .SOLVED ↔ fullBoard b) ∧
       (getRequiredTechniqueLevel b = .REQUIRES_ADVANCED ↔ ¬ fullBoard b))) := by
  by_cases h1 : (allCellsList.any fun p => (findCandidates b p.1 p.2).length == 1) = true
  · have hres : getRequiredTechniqueLevel b = .EASY_SINGLE := by
      rw [getRequiredTechniqueLevel, if_pos h1]
    rw [hres]
    refine ⟨⟨fun _ => Or.inl ((nakedAny_iff b).mp h1), fun _ => rfl⟩, fun h => absurd rfl h⟩
  · by_cases h2 : ((List.finRange 9).any fun i => digits.any fun n =>
        rowSingleCount b i n == 1 || colSingleCount b i n == 1 ||
        boxSingleCount b i n == 1) = true
    · have hres : getRequiredTechniqueLevel b = .EASY_SINGLE := by
        rw [getRequiredTechniqueLevel, if_neg h1, if_pos h2]
      rw [hres]
      refine ⟨⟨fun _ => Or.inr ((hiddenAny_iff b).mp h2), fun _ => rfl⟩,
        fun h => absurd rfl h⟩
    · have hnone : ¬ ((∃ r c : Fin 9, b r c = 0 ∧ (findCandidates b r c).length = 1) ∨
          (∃ i : Fin 9, ∃ n ∈ digits, rowSingleCount b i n = 1 ∨
            colSingleCount b i n = 1 ∨ boxSingleCount b i n = 1)) := by
        rintro (hnk | hhd)
        · exact h1 ((nakedAny_iff b).mpr hnk)
        · exact h2 ((hiddenAny_iff b).mpr hhd)
      by_cases h3 : (allCellsList.all fun p => b p.1 p.2 != 0) = true
      · have hres : getRequiredTechniqueLevel b = .SOLVED := by
          rw [getRequiredTechniqueLevel, if_neg h1, if_neg h2, if_pos h3]
        rw [hres]
        refine ⟨⟨fun h => absurd h (by simp), fun h => absurd h hnone⟩, fun _ => ?_⟩
        refine ⟨⟨fun _ => (solvedAll_iff b).mp h3, fun _ => rfl⟩, ?_⟩
        refine ⟨fun h => absurd h (by simp), fun h => absurd ((solvedAll_iff b).mp h3) h⟩
      · have hres : getRequiredTechniqueLevel b = .REQUIRES_ADVANCED := by
          rw [getRequiredTechniqueLevel, if_neg h1, if_neg h2, if_neg h3]
        rw [hres]
        refine ⟨⟨fun h => absurd h (by simp), fun h => absurd h hnone⟩, fun _ => ?_⟩
        refine ⟨⟨fun h => absurd h (by simp), fun hf => absurd ((solvedAll_iff b).mpr hf) h3⟩, ?_⟩
        exact ⟨fun _ hf => absurd ((solvedAll_iff b).mpr hf) h3, fun _ => rfl⟩

/-- C7: the difficulty table maps easy/medium/hard/minima to 48/35/25/17, and
the singles gate is consulted exactly for easy and medium: for a tier without
the gate a removal is accepted iff the uniqueness count is 1, while for a
gated tier it is accepted iff additionally the classifier does not answer
REQUIRES_ADVANCED.  (`attempts` resets to 0 exactly on acceptance.) -/
theorem C7_difficulty_table_and_gate :
    DIFFICULTY_CLUES "easy" = some 48 ∧ DIFFICULTY_CLUES "medium" = some 35 ∧
    DIFFICULTY_CLUES "hard" = some 25 ∧ DIFFICULTY_CLUES "minima" = some 17 ∧
    usesGate "easy" = true ∧ usesGate "medium" = true ∧
    usesGate "hard" = false ∧ usesGate "minima" = false ∧
    (∀ (d : String) (st : GenState) (rc : Fin 9 × Fin 9),
      st.cells.getLast? = some rc → usesGate d = false →
      ((genBody d st).attempts = 0 ↔
        solveCount st.rnd (setCell st.puzzle rc.1 rc.2 0) 2 = 1)) ∧
    (∀ (d : String) (st : GenState) (rc : Fin 9 × Fin 9),
      st.cells.getLast? = some rc → usesGate d = true →
      ((genBody d st).attempts = 0 ↔
        (solveCount st.rnd (setCell st.puzzle rc.1 rc.2 0) 2 = 1 ∧
          getRequiredTechniqueLevel (setCell st.puzzle rc.1 rc.2 0)
            ≠ .REQUIRES_ADVANCED))) := by
  refine ⟨rfl, rfl, rfl, rfl, rfl, rfl, rfl, rfl, ?_, ?_⟩
  · intro d st rc hl hgate
    rw [genBody_eq d st hl, hgate]
    by_cases hacc : solveCount st.rnd (setCell st.puzzle rc.1 rc.2 0) 2 = 1
    · rw [if_pos (by simpa using hacc)]
      exact ⟨fun _ => hacc, fun _ => rfl⟩
    · rw [if_neg (by simpa using hacc)]
      exact ⟨fun h => absurd h (by dsimp only; omega), fun h => absurd h hacc⟩
  · intro d st rc hl hgate
    rw [genBody_eq d st hl, hgate]
    by_cases hacc : solveCount st.rnd (setCell st.puzzle rc.1 rc.2 0) 2 = 1 ∧
        getRequiredTechniqueLevel (setCell st.puzzle rc.1 rc.2 0)
          ≠ .REQUIRES_ADVANCED
    · rw [if_pos (by simpa using hacc)]
      exact ⟨fun _ => hacc, fun _ => rfl⟩
    · rw [if_neg (by simpa using hacc)]
      exact ⟨fun h => absurd h (by dsimp only; omega), fun h => absurd h hacc⟩

/-- C1 (code bug): in counting mode the counter is also incremented on every
stack frame that unwinds a success, so on `twoSolBoard` — which has at least
two completions (`fullGrid0` and `fullGrid1`, differing at the empty cell
`(3,5)`) — `solve` with limit 2 returns 6, not a value in {0, 1, 2}. -/
theorem C1_count_overcounts :
    solveCount idStream twoSolBoard 2 = 6 ∧
    IsCompletion twoSolBoard fullGrid0 ∧ IsCompletion twoSolBoard fullGrid1 ∧
    fullGrid0 3 5 ≠ fullGrid1 3 5 ∧ twoSolBoard 3 5 = 0 := by
  refine ⟨?_, by decide, by decide, by decide, by decide⟩
  decide

/-- C4 counterexample: a fully assigned grid violating the rules (all cells
hold 1) has no valid completion, yet `solve` in `FindOne` mode returns true
on it because the first-empty-cell scan finds nothing and reports success. -/
theorem C4_counterexample_full_invalid :
    (solve idStream allOnesBoard 1).1 = true ∧
      ¬ ∃ b', IsCompletion allOnesBoard b' := by
  refine ⟨by decide, ?_⟩
  rintro ⟨b', hfull, hvalid, hext⟩
  have h0 : b' 0 0 = 1 := hext 0 0 (by decide)
  have h1 : b' 0 1 = 1 := hext 0 1 (by decide)
  have hcount := hvalid 1 (by decide) 0 0
  have htwo : ({0, 1} : Finset (Fin 9)) ⊆
      Finset.univ.filter fun p : Fin 9 =>
        b' (unitCell 0 0 p).1 (unitCell 0 0 p).2 = 1 := by
    intro p hp
    rw [Finset.mem_insert, Finset.mem_singleton] at hp
    rw [Finset.mem_filter]
    refine ⟨Finset.mem_univ p, ?_⟩
    rcases hp with rfl | rfl
    · rw [unitCell_row]
      exact h0
    · rw [unitCell_row]
      exact h1
  have hcard := Finset.card_le_card htwo
  rw [Finset.card_pair (by decide)] at hcard
  rw [unitCount] at hcount
  omega

/-- C4 (amended): for consistent input grids — digits in range and no digit
twice in any unit among the filled cells — `solve` in `FindOne` mode returns
false exactly when no valid completion exists.  (On arbitrary malformed
grids the contract fails, see the counterexample.) -/
theorem C4_amended_findone_false_iff (σ : Shuffle) (b : Board)
    (hσ : ValidStream σ) (hc : Consistent b) :
    (solve σ b 1).1 = false ↔ ¬ ∃ b', IsCompletion b b' := by
  rw [← solveOne_true_iff hσ hc]
  cases h : (solve σ b 1).1
  · simp
  · simp

/-- C4 amended witness: on the empty board (consistent), `FindOne` does not
return false, matching the existence of completions. -/
theorem C4_amended_witness :
    ValidStream idStream ∧ Consistent emptyBoard ∧
      ((solve idStream emptyBoard 1).1 = false ↔
        ¬ ∃ b', IsCompletion emptyBoard b') :=
  ⟨idStream_valid, by decide,
    C4_amended_findone_false_iff idStream emptyBoard idStream_valid (by decide)⟩

/-- C10: counting mode operates directly on the caller's grid and the early
return on reaching the limit leaves the current branch's assignments in
place: cell (3,5) of `twoSolBoard` is EMPTY on entry and holds 3 after
`solve(·, 2)` returns. -/
theorem C10_count_mode_mutates_caller_grid :
    twoSolBoard 3 5 = 0 ∧ solveBoard idStream twoSolBoard 2 3 5 = 3 ∧
      solveBoard idStream twoSolBoard 2 ≠ twoSolBoard := by
  have h1 : twoSolBoard 3 5 = 0 := by decide
  have h2 : solveBoard idStream twoSolBoard 2 3 5 = 3 := by decide
  refine ⟨h1, h2, fun h => ?_⟩
  rw [h] at h2
  rw [h1] at h2
  exact absurd h2 (by omega)

/-- C3: every grid returned by `generateFullGrid` (under faithful
randomness) is fully assigned and valid: each row, column and 3×3 box
contains each digit 1–9 exactly once. -/
theorem C3_generateFullGrid_full_valid (σ : Shuffle) (hσ : ValidStream σ) :
    fullBoard (generateFullGrid σ).1 ∧ validBoard (generateFullGrid σ).1 :=
  ⟨(generateFullGrid_spec hσ).1, (generateFullGrid_spec hσ).2.1⟩

/-- C3 witness: at the unshuffled stream. -/
theorem C3_witness :
    ValidStream idStream ∧
      (fullBoard (generateFullGrid idStream).1 ∧
        validBoard (generateFullGrid idStream).1) :=
  ⟨idStream_valid, C3_generateFullGrid_full_valid idStream idStream_valid⟩

/-- C2: every puzzle returned by `generateSudokuPuzzle` (any target clue
count, any difficulty, any removal order, faithful randomness) has exactly
one solution: the counting solver with limit 2, run on the result with any
faithful randomness, returns exactly 1. -/
theorem C2_generated_puzzle_unique (σ σ' : Shuffle)
    (order : List (Fin 9 × Fin 9)) (target : ℕ) (difficulty : String)
    (hσ : ValidStream σ) (hσ' : ValidStream σ') :
    solveCount σ' (generateSudokuPuzzle σ order target difficulty) 2 = 1 := by
  have hfg := generateFullGrid_spec hσ
  have hinit : GoodGen
      { puzzle := (generateFullGrid σ).1, clues := 81,
        attempts := 0, cells := order, rnd := (generateFullGrid σ).2 } :=
    ⟨NC_one_of_full_valid hfg.1 hfg.2.1, hfg.2.2⟩
  have hfinal : GoodGen (genLoop target difficulty genFuel
      { puzzle := (generateFullGrid σ).1, clues := 81, attempts := 0,
        cells := order, rnd := (generateFullGrid σ).2 }) :=
    genLoop_pres (fun st _ h => genBody_good difficulty st h) genFuel _ hinit
  have hres : generateSudokuPuzzle σ order target difficulty
      = (genLoop target difficulty genFuel
        { puzzle := (generateFullGrid σ).1, clues := 81, attempts := 0,
          cells := order, rnd := (generateFullGrid σ).2 }).puzzle := rfl
  rw [hres]
  exact (solveCount_eq_one_iff hσ'
    (Consistent_of_NC_pos (by rw [hfinal.1]; omega))).mpr hfinal.1

/-- C2 witness: a degenerate run with an empty removal order. -/
theorem C2_witness :
    ValidStream idStream ∧
      solveCount idStream (generateSudokuPuzzle idStream [] 48 "easy") 2 = 1 :=
  ⟨idStream_valid,
    C2_generated_puzzle_unique idStream idStream [] 48 "easy"
      idStream_valid idStream_valid⟩

/-- C9: the `FindOne` solver never modifies a cell that is non-EMPTY on
entry, so every clue cell of a generated puzzle keeps its value in the
solution derived by solving a copy of that puzzle. -/
theorem C9_clue_cells_invariant (σ σ' : Shuffle)
    (order : List (Fin 9 × Fin 9)) (target : ℕ) (difficulty : String) :
    (∀ (τ : Shuffle) (b : Board) (r c : Fin 9), b r c ≠ 0 →
      solveBoard τ b 1 r c = b r c) ∧
    (∀ r c : Fin 9,
      generateSudokuPuzzle σ order target difficulty r c ≠ 0 →
      solveBoard σ' (generateSudokuPuzzle σ order target difficulty) 1 r c =
        generateSudokuPuzzle σ order target difficulty r c) :=
  ⟨fun τ b r c h => solveBoard_extends τ b r c h,
    fun r c h => solveBoard_extends σ' _ r c h⟩

/-- C9 witness: a clue of a concrete full grid survives solving. -/
theorem C9_witness :
    fullGrid0 0 0 ≠ 0 ∧ solveBoard idStream fullGrid0 1 0 0 = fullGrid0 0 0 :=
  ⟨by decide,
    (C9_clue_cells_invariant idStream idStream [] 48 "easy").1
      idStream fullGrid0 0 0 (by decide)⟩

/-- C8: throughout the removal loop the number of non-EMPTY cells equals
the `clues` counter and never increases across a step (acceptance removes
exactly one clue, rejection fully restores the puzzle), and for every
`targetClues ≤ 81` the returned puzzle keeps at least `targetClues`
non-EMPTY cells. -/
theorem C8_clue_count_invariant (σ : Shuffle) (order : List (Fin 9 × Fin 9))
    (target : ℕ) (difficulty : String) (hσ : ValidStream σ)
    (hord : order.Perm allCellsList) (htgt : target ≤ 81) :
    (∀ st : GenState, GenInv st →
      GenInv (genBody difficulty st) ∧ (genBody difficulty st).clues ≤ st.clues) ∧
    target ≤ clueCount (generateSudokuPuzzle σ order target difficulty) := by
  refine ⟨fun st h => genBody_inv difficulty st h, ?_⟩
  have hfg := generateFullGrid_spec hσ
  have hnodup : order.Nodup := hord.nodup_iff.mpr (by decide)
  have hinit : GenInv
        { puzzle := (generateFullGrid σ).1, clues := 81,
          attempts := 0, cells := order, rnd := (generateFullGrid σ).2 } ∧
      target ≤ ({ puzzle := (generateFullGrid σ).1, clues := 81, attempts := 0,
                  cells := order, rnd := (generateFullGrid σ).2 } : GenState).clues := by
    refine ⟨⟨?_, hnodup, ?_⟩, ?_⟩
    · exact clueCount_full hfg.1
    · intro p _
      exact hfg.1 p.1 p.2
    · exact htgt
  have hfinal := genLoop_pres (P := fun st => GenInv st ∧ target ≤ st.clues)
    (fun st hdone h => ⟨(genBody_inv difficulty st h.1).1,
      genBody_clues_ge difficulty st hdone⟩) genFuel _ hinit
  have hres : generateSudokuPuzzle σ order target difficulty
      = (genLoop target difficulty genFuel
        { puzzle := (generateFullGrid σ).1, clues := 81, attempts := 0,
          cells := order, rnd := (generateFullGrid σ).2 }).puzzle := rfl
  rw [hres, hfinal.1.1]
  exact hfinal.2

/-- C5: the generator keeps a single `attempts` counter for the removal
attempts with cap 50: an accepted removal resets it to 0 and decrements
`clues`, a failed removal restores the puzzle and increments it; once it
reaches the cap the whole loop aborts, leaving the state untouched, and the
loop always terminates within its measure. -/
theorem C5_attempt_cap_terminates (target : ℕ) (difficulty : String)
    (st : GenState) (fuel : ℕ) :
    (loopDone target st = false →
      ((genBody difficulty st).attempts = 0 ∧
        (genBody difficulty st).clues = st.clues - 1) ∨
      ((genBody difficulty st).attempts = st.attempts + 1 ∧
        (genBody difficulty st).puzzle = st.puzzle ∧
        (genBody difficulty st).clues = st.clues)) ∧
    (maxAttemptsPerRemoval ≤ st.attempts →
      genLoop target difficulty fuel st = st) ∧
    (genMeasure st ≤ fuel →
      loopDone target (genLoop target difficulty fuel st) = true) := by
  refine ⟨?_, fun h => genLoop_abort fuel st h, fun h => genLoop_done fuel st h⟩
  intro hdone
  obtain ⟨rc, hl⟩ := loopDone_getLast hdone
  rw [genBody_eq difficulty st hl]
  by_cases hacc : solveCount st.rnd (setCell st.puzzle rc.1 rc.2 0) 2 = 1 ∧
      (if usesGate difficulty then
        decide (getRequiredTechniqueLevel (setCell st.puzzle rc.1 rc.2 0)
          ≠ .REQUIRES_ADVANCED) else true) = true
  · rw [if_pos hacc]
    exact Or.inl ⟨rfl, rfl⟩
  · rw [if_neg hacc]
    refine Or.inr ⟨rfl, ?_, rfl⟩
    dsimp only
    rw [restore_setCell]

/-- C5 witness: with the attempts counter at the cap the loop aborts at
once, accepting the current clue count. -/
theorem C5_witness :
    maxAttemptsPerRemoval ≤ 50 ∧
      genLoop 48 "easy" genFuel
        { puzzle := fullGrid0, clues := 81, attempts := 50, cells := [],
          rnd := idStream } =
        { puzzle := fullGrid0, clues := 81, attempts := 50, cells := [],
          rnd := idStream } :=
  ⟨by decide,
    (C5_attempt_cap_terminates 48 "easy"
      { puzzle := fullGrid0, clues := 81, attempts := 50, cells := [],
        rnd := idStream } genFuel).2.1 (by decide)⟩

/-- C8 witness: at the unshuffled stream and the row-major removal order. -/
theorem C8_witness :
    ValidStream idStream ∧ allCellsList.Perm allCellsList ∧ 48 ≤ 81 ∧
      48 ≤ clueCount (generateSudokuPuzzle idStream allCellsList 48 "hard") :=
  ⟨idStream_valid, List.Perm.refl _, by omega,
    (C8_clue_count_invariant idStream allCellsList 48 "hard" idStream_valid
      (List.Perm.refl _) (by omega)).2⟩

/-- C6 witness: on the concrete solved grid the classifier answers SOLVED,
matching the characterization. -/
theorem C6_witness :
    getRequiredTechniqueLevel fullGrid0 ≠ TechLevel.EASY_SINGLE ∧
      (getRequiredTechniqueLevel fullGrid0 = TechLevel.SOLVED ↔
        fullBoard fullGrid0) :=
  ⟨by decide, ((C6_classifier_characterization fullGrid0).2 (by decide)).1⟩

/-- C7 witness: for the ungated tier "hard" a removal from a concrete state
is accepted exactly on the uniqueness count. -/
theorem C7_witness :
    usesGate "hard" = false ∧
      ((genBody "hard"
          { puzzle := fullGrid0, clues := 81, attempts := 0,
            cells := [((0 : Fin 9), (0 : Fin 9))], rnd := idStream }).attempts = 0 ↔
        solveCount idStream (setCell fullGrid0 0 0 0) 2 = 1) :=
  ⟨rfl, C7_difficulty_table_and_gate.2.2.2.2.2.2.2.2.1 "hard"
    { puzzle := fullGrid0, clues := 81, attempts := 0,
      cells := [((0 : Fin 9), (0 : Fin 9))], rnd := idStream }
    ((0 : Fin 9), (0 : Fin 9)) rfl rfl⟩
